import Mathlib

/-!
# iperf-app: measurement pipeline

A shallow embedding of `iperf-app.go` and proofs about its text parsing
(`parseIperfOutput`, `pingIP`), its persistence (`saveJSON`) and its HTTP read
path (`handleSpeedTestLatest`).

Conventions of the embedding

* A Go `string` is a list of runes, `Text`.
* A Go `float64` is `F64`: a rational number, or one of `+Inf`, `-Inf`, `NaN`.
  Every operation rounds its exact result as IEEE 754 binary64 does
  (`roundF64`): to the nearest number of 53 significant bits, a tie going to
  the even one, gradually below `2^-1022`, and to an infinity from
  `2^1024 - 2^970` on.  The sign of a zero is not kept.
* The external world (the output of `iperf3` and `ping`, the clock, the outcome
  of the disk write, the content of `netdata.json`) is passed explicitly.
-/

namespace IperfApp

/-- A Go string, as its sequence of runes. -/
abbrev Text := List Char

/-! ## Character classes of Go's `regexp` and `strconv` -/

/-- The class `\d` of Go's regexp, `[0-9]`. -/
def isDigit (c : Char) : Bool := decide (48 ≤ c.toNat ∧ c.toNat ≤ 57)

/-- The class `\s` of Go's regexp, `[\t\n\f\r ]`. -/
def isSpace (c : Char) : Bool :=
  c.toNat = 9 || c.toNat = 10 || c.toNat = 12 || c.toNat = 13 || c.toNat = 32

/-- The class `\.`, a literal dot. -/
def isDot (c : Char) : Bool := c.toNat = 46

/-- The class `[GM]`. -/
def isGM (c : Char) : Bool := c.toNat = 71 || c.toNat = 77

/-! ## Regular expressions

The patterns of the program are sequences of literals, character classes
under `?`, `*`, `+`, and capture groups.  `Regex.run` lists, for an
input, every way the pattern matches a beginning of it, in the order in which a
backtracking search tries them (greedy quantifiers first take as much as they
can).  Go's regexp returns the leftmost match and, at that position, the one a
backtracking search finds first: the head of this list. -/

/-- The patterns used by the program. -/
inductive Regex where
  | str (s : Text)
  | opt (p : Char → Bool)
  | star (p : Char → Bool)
  | plus (p : Char → Bool)
  | seq (a b : Regex)
  | group (a : Regex)

/-- Removes the literal `l` from the front of the text, if it is there. -/
def stripLit : Text → Text → Option Text
  | [], s => some s
  | _ :: _, [] => none
  | p :: ps, c :: cs => if p = c then stripLit ps cs else none

/-- What remains after `p*`, the longest run first. -/
def starRests (p : Char → Bool) : Text → List Text
  | [] => [[]]
  | c :: cs => if p c then starRests p cs ++ [c :: cs] else [c :: cs]

/-- One way a pattern matched: the texts of the capture groups it closed, in
the order of their opening parentheses, and the text left after the match. -/
abbrev Hit := List Text × Text

/-- All matches of the pattern at the start of the text, in backtracking
order. -/
def Regex.run : Regex → Text → List Hit
  | .str l, s =>
    match stripLit l s with
    | some r => [([], r)]
    | none => []
  | .opt p, s =>
    match s with
    | c :: cs => if p c then [([], cs), ([], c :: cs)] else [([], c :: cs)]
    | [] => [([], [])]
  | .star p, s => (starRests p s).map (fun r => ([], r))
  | .plus p, s =>
    match s with
    | c :: cs => if p c then (starRests p cs).map (fun r => ([], r)) else []
    | [] => []
  | .seq a b, s =>
    (a.run s).flatMap (fun x => (b.run x.2).map (fun y => (x.1 ++ y.1, y.2)))
  | .group a, s =>
    (a.run s).map (fun x => (s.take (s.length - x.2.length) :: x.1, x.2))

/-- The match a backtracking search finds first at the start of the text. -/
def Regex.matchAt (re : Regex) (s : Text) : Option Hit := (re.run s).head?

/-- The submatch slice Go returns for a match that starts at `s`: the whole
match, then the capture groups. -/
def submatches (s : Text) (h : Hit) : List Text :=
  s.take (s.length - h.2.length) :: h.1

/-- Go's `(*Regexp).FindStringSubmatch`: the submatches of the leftmost match, or `nil`. -/
def FindStringSubmatch (re : Regex) : Text → Option (List Text)
  | [] => (re.matchAt []).map (submatches [])
  | c :: cs =>
    match re.matchAt (c :: cs) with
    | some h => some (submatches (c :: cs) h)
    | none => FindStringSubmatch re cs

/-- Scan of `FindAllStringSubmatch`: `skip` counts the runes that still belong
to the previous match. -/
def findAllFrom (re : Regex) : Nat → Text → List (List Text)
  | _, [] => []
  | skip + 1, _ :: cs => findAllFrom re skip cs
  | 0, c :: cs =>
    match re.matchAt (c :: cs) with
    | some h =>
      submatches (c :: cs) h :: findAllFrom re ((c :: cs).length - h.2.length - 1) cs
    | none => findAllFrom re 0 cs

/-- Go's `(*Regexp).FindAllStringSubmatch(s, -1)`: the successive non-overlapping
matches, left to right.  (An empty match at the very end of the text is not
listed; the patterns of this program match no empty text.) -/
def FindAllStringSubmatch (re : Regex) (s : Text) : List (List Text) :=
  findAllFrom re 0 s

/-- The number text `\d+\.?\d*`. -/
def numberRe : Regex :=
  .seq (.plus isDigit) (.seq (.opt isDot) (.star isDigit))

/-- The text `bits/sec`. -/
def bitsPerSec : Text := ['b', 'i', 't', 's', '/', 's', 'e', 'c']

/-- The text `sender`. -/
def senderWord : Text := ['s', 'e', 'n', 'd', 'e', 'r']

/-- The text `receiver`. -/
def receiverWord : Text := ['r', 'e', 'c', 'e', 'i', 'v', 'e', 'r']

/-- The text `time=`. -/
def timeEq : Text := ['t', 'i', 'm', 'e', '=']

/-- The pattern `(\d+\.?\d*)\s*([GM]?)bits/sec\s*\d+\s+sender`. -/
def senderRegex : Regex :=
  .seq (.group numberRe) (.seq (.star isSpace) (.seq (.group (.opt isGM))
    (.seq (.str bitsPerSec) (.seq (.star isSpace) (.seq (.plus isDigit)
      (.seq (.plus isSpace) (.str senderWord)))))))

/-- The pattern `(\d+\.?\d*)\s*([GM]?)bits/sec\s+receiver`. -/
def receiverRegex : Regex :=
  .seq (.group numberRe) (.seq (.star isSpace) (.seq (.group (.opt isGM))
    (.seq (.str bitsPerSec) (.seq (.plus isSpace) (.str receiverWord)))))

/-- The pattern `time=(\d+\.?\d*)`. -/
def pingRegex : Regex := .seq (.str timeEq) (.group numberRe)

/-! ## float64 -/

/-- A Go `float64`. -/
inductive F64 where
  | fin (q : ℚ)
  | posInf
  | negInf
  | nan
  deriving DecidableEq

/-- The least magnitude that rounds beyond the largest finite `float64`,
`2^1024 - 2^970`. -/
def f64Bound : ℚ := 2 ^ 1024 - 2 ^ 970

/-- Whether the value can go into a JSON document: `encoding/json` refuses
`NaN` and the infinities. -/
def F64.isFinite : F64 → Bool
  | .fin _ => true
  | _ => false

/-- The nearest integer, a tie going to the even one: the rounding of IEEE 754
and of the decimal conversions of `strconv`. -/
def roundHalfEven (q : ℚ) : Int :=
  if q - ⌊q⌋ < 1 / 2 then ⌊q⌋
  else if 1 / 2 < q - ⌊q⌋ then ⌊q⌋ + 1
  else if ⌊q⌋ % 2 = 0 then ⌊q⌋ else ⌊q⌋ + 1

/-- Exponent of the last of the 53 bits of a float64 of the size of `q`: 52
below the exponent of the leading bit, which is not taken below -1022 (the
subnormal numbers share the exponent -1074). -/
def ulpExp (q : ℚ) : Int := max (Int.log 2 |q|) (-1022) - 52

/-- The multiple of `2 ^ ulpExp q` nearest to `q`, a tie going to the even
multiple: the float64 nearest to `q` while the range is not exceeded. -/
def nearestF64 (q : ℚ) : ℚ := (roundHalfEven (q / 2 ^ ulpExp q) : ℚ) * 2 ^ ulpExp q

/-- The float64 that an exact result `q` is rounded to: the nearest one, or an
infinity when `q` rounds beyond the largest finite value. -/
def roundF64 (q : ℚ) : F64 :=
  if f64Bound ≤ |q| then (if 0 < q then .posInf else .negInf) else .fin (nearestF64 q)

/-- The sum `x + y` of float64. -/
def F64.add : F64 → F64 → F64
  | .fin a, .fin b => roundF64 (a + b)
  | .nan, _ => .nan
  | _, .nan => .nan
  | .posInf, .negInf => .nan
  | .negInf, .posInf => .nan
  | .posInf, _ => .posInf
  | _, .posInf => .posInf
  | .negInf, _ => .negInf
  | _, .negInf => .negInf

/-- The quotient `x / y` of float64; a division by zero gives an infinity, and
`0 / 0` gives `NaN`. -/
def F64.div : F64 → F64 → F64
  | .fin a, .fin b =>
    if b = 0 then (if a = 0 then .nan else if 0 < a then .posInf else .negInf)
    else roundF64 (a / b)
  | .nan, _ => .nan
  | _, .nan => .nan
  | .fin _, _ => .fin 0
  | .posInf, .fin b => if 0 ≤ b then .posInf else .negInf
  | .negInf, .fin b => if 0 ≤ b then .negInf else .posInf
  | _, _ => .nan

/-- The product `x * y` of float64. -/
def F64.mul : F64 → F64 → F64
  | .fin a, .fin b => roundF64 (a * b)
  | .nan, _ => .nan
  | _, .nan => .nan
  | .fin a, .posInf => if a = 0 then .nan else if 0 < a then .posInf else .negInf
  | .fin a, .negInf => if a = 0 then .nan else if 0 < a then .negInf else .posInf
  | .posInf, .fin b => if b = 0 then .nan else if 0 < b then .posInf else .negInf
  | .negInf, .fin b => if b = 0 then .nan else if 0 < b then .negInf else .posInf
  | .posInf, .posInf => .posInf
  | .negInf, .negInf => .posInf
  | _, _ => .negInf

/-- The conversion `float64(n)` of a length. -/
def F64.ofNat (n : Nat) : F64 := roundF64 n

/-- The sum of a list of float64, taken from left to right. -/
def sumF64 (xs : List F64) : F64 := xs.foldl F64.add (.fin 0)

/-- The arithmetic mean of a list of float64: the sum divided by the count. -/
def meanF64 (xs : List F64) : F64 := (sumF64 xs).div (F64.ofNat xs.length)

/-! ## strconv.ParseFloat -/

/-- The two errors of `strconv`: `ErrSyntax` and `ErrRange`. -/
inductive NumError where
  | invalid
  | range
  deriving DecidableEq

/-- Value of a decimal digit. -/
def digitVal (c : Char) : Nat := c.toNat - 48

/-- Value of a run of decimal digits. -/
def digitsVal (ds : Text) : Nat := ds.foldl (fun n c => 10 * n + digitVal c) 0

/-- ASCII lower case of a letter, as `strconv` folds case. -/
def lowerAscii (c : Char) : Char :=
  if 65 ≤ c.toNat ∧ c.toNat ≤ 90 then Char.ofNat (c.toNat + 32) else c

/-- Whether the text is the word, ignoring ASCII case. -/
def eqFold (s word : Text) : Bool := s.map lowerAscii = word

/-- The function `special` of `strconv` together with the requirement of
`ParseFloat` that the whole text is used: `NaN`, and `Inf` or `Infinity` with an
optional sign, in any case. -/
def special (s : Text) : Option F64 :=
  let inf (t : Text) : Bool :=
    eqFold t ['i', 'n', 'f'] || eqFold t ['i', 'n', 'f', 'i', 'n', 'i', 't', 'y']
  match s with
  | [] => none
  | c :: cs =>
    if c = '+' then (if inf cs then some .posInf else none)
    else if c = '-' then (if inf cs then some .negInf else none)
    else if inf (c :: cs) then some .posInf
    else if eqFold (c :: cs) ['n', 'a', 'n'] then some .nan
    else none

/-- Value of a hexadecimal digit. -/
def hexVal (c : Char) : Option Nat :=
  if isDigit c then some (c.toNat - 48)
  else if 97 ≤ c.toNat ∧ c.toNat ≤ 102 then some (c.toNat - 87)
  else if 65 ≤ c.toNat ∧ c.toNat ≤ 70 then some (c.toNat - 55)
  else none

/-- A hexadecimal digit. -/
def isHexDigit (c : Char) : Bool := (hexVal c).isSome

/-- Value of a run of hexadecimal digits. -/
def hexDigitsVal (ds : Text) : Nat := ds.foldl (fun n c => 16 * n + (hexVal c).getD 0) 0

/-- The digits of an exponent after its letter: an optional sign and at least
one digit, and nothing else. -/
def readExponentDigits : Text → Option Int
  | [] => none
  | d :: ds =>
    if d = '+' then
      (if ds ≠ [] ∧ ds.all isDigit then some (digitsVal ds : Int) else none)
    else if d = '-' then
      (if ds ≠ [] ∧ ds.all isDigit then some (-(digitsVal ds : Int)) else none)
    else if (d :: ds).all isDigit then some (digitsVal (d :: ds) : Int)
    else none

/-- The exponent part `e[+-]ddd` of a decimal literal: the exponent, when the
text is empty (exponent 0) or a well-formed exponent part and nothing else. -/
def readExponent (s : Text) : Option Int :=
  match s with
  | [] => some 0
  | c :: cs => if c = 'e' ∨ c = 'E' then readExponentDigits cs else none

/-- The exponent part `p[+-]ddd` of a hexadecimal literal, which must be there. -/
def readBinaryExponent (s : Text) : Option Int :=
  match s with
  | [] => none
  | c :: cs => if c = 'p' ∨ c = 'P' then readExponentDigits cs else none

/-- The value `m * 10 ^ x`. -/
def decVal (m : Nat) (x : Int) : ℚ :=
  if 0 ≤ x then (m : ℚ) * 10 ^ x.toNat else (m : ℚ) / 10 ^ (-x).toNat

/-- The value `m * 2 ^ x`. -/
def binVal (m : Nat) (x : Int) : ℚ :=
  if 0 ≤ x then (m : ℚ) * 2 ^ x.toNat else (m : ℚ) / 2 ^ (-x).toNat

/-- An unsigned decimal literal `ddd[.ddd][e[+-]ddd]`, read as `readFloat` of
`strconv` reads it: its value, or nothing when the text is not such a literal. -/
def readDecimal (s : Text) : Option ℚ :=
  let ip := s.takeWhile isDigit
  let r1 := s.dropWhile isDigit
  let fp := match r1 with
    | c :: cs => if isDot c then cs.takeWhile isDigit else []
    | [] => []
  let r2 := match r1 with
    | c :: cs => if isDot c then cs.dropWhile isDigit else r1
    | [] => []
  if ip = [] ∧ fp = [] then none
  else
    match readExponent r2 with
    | none => none
    | some e => some (decVal (digitsVal (ip ++ fp)) (e - fp.length))

/-- Whether `readFloat` takes the unsigned literal as hexadecimal: it starts
with `0x` or `0X` and goes on. -/
def isHexPrefixed : Text → Bool
  | a :: b :: _ :: _ => a = '0' && (b = 'x' || b = 'X')
  | _ => false

/-- The digits `hhh[.hhh]p[+-]ddd` of a hexadecimal literal after its `0x`:
the value, or nothing when the text is not of this form. -/
def readHex (s : Text) : Option ℚ :=
  let ip := s.takeWhile isHexDigit
  let r1 := s.dropWhile isHexDigit
  let fp := match r1 with
    | c :: cs => if isDot c then cs.takeWhile isHexDigit else []
    | [] => []
  let r2 := match r1 with
    | c :: cs => if isDot c then cs.dropWhile isHexDigit else r1
    | [] => []
  if ip = [] ∧ fp = [] then none
  else
    match readBinaryExponent r2 with
    | none => none
    | some e => some (binVal (hexDigitsVal (ip ++ fp)) (e - 4 * fp.length))

/-- The last character seen by `underscoreOK`: none yet, a digit (or the base
prefix), an underscore, anything else. -/
inductive Saw where
  | start
  | digit
  | underscore
  | other
  deriving DecidableEq

/-- The loop of `underscoreOK` of `strconv`: an underscore must follow a digit and
be followed by a digit. -/
def underscoreLoop (hex : Bool) : Saw → Text → Bool
  | saw, [] => saw ≠ .underscore
  | saw, c :: cs =>
    if isDigit c || (hex && isHexDigit c) then underscoreLoop hex .digit cs
    else if c = '_' then (if saw = .digit then underscoreLoop hex .underscore cs else false)
    else if saw = .underscore then false
    else underscoreLoop hex .other cs

/-- The function `underscoreOK` of `strconv`: the underscores of the literal separate digits,
or the base prefix from a digit. -/
def underscoreOK (s : Text) : Bool :=
  let s1 : Text := match s with
    | c :: cs => if c = '-' ∨ c = '+' then cs else c :: cs
    | [] => []
  match s1 with
  | a :: b :: rest =>
    if a = '0' ∧ (b = 'b' ∨ b = 'B' ∨ b = 'o' ∨ b = 'O' ∨ b = 'x' ∨ b = 'X') then
      underscoreLoop (b = 'x' ∨ b = 'X') .digit rest
    else underscoreLoop false .start s1
  | _ => underscoreLoop false .start s1

/-- Turns the magnitude and sign of a literal into the `float64` result of
`ParseFloat`: the nearest float64; beyond the range the result is an infinity
and `ErrRange`. -/
def roundResult (neg : Bool) (q : ℚ) : F64 × Option NumError :=
  if f64Bound ≤ q then ((if neg then .negInf else .posInf), some .range)
  else (.fin (nearestF64 (if neg then -q else q)), none)

/-- Go's `strconv.ParseFloat(s, 64)`: the value and the error.  The text is a special
value, or an optional sign and a decimal or hexadecimal literal, in which
underscores may separate digits.  On a syntax error the value is 0.  (The
exponent is taken as written, however long.) -/
def ParseFloat (s : Text) : F64 × Option NumError :=
  match special s with
  | some v => (v, none)
  | none =>
    if s.any (fun c => c = '_') && !underscoreOK s then (.fin 0, some .invalid)
    else
      match s.filter (fun c => c ≠ '_') with
      | [] => (.fin 0, some .invalid)
      | c :: cs =>
        let neg : Bool := c = '-'
        let body := if c = '+' ∨ c = '-' then cs else c :: cs
        match (if isHexPrefixed body then readHex (body.drop 2) else readDecimal body) with
        | none => (.fin 0, some .invalid)
        | some q => roundResult neg q

/-! ## The parsing functions of the program -/

/-- The function `parseFloat` of the program: the value of `ParseFloat`; an error is logged and
the value returned all the same. -/
def parseFloat (s : Text) : F64 := (ParseFloat s).1

/-- The function `parseIperfOutput` of the program: sender and receiver bitrate, each 0 unless its
pattern matches. -/
def parseIperfOutput (output : Text) : F64 × F64 :=
  let senderBitrate : F64 :=
    match FindStringSubmatch senderRegex output with
    | some senderMatch => parseFloat (senderMatch.getD 1 [])
    | none => .fin 0
  let receiverBitrate : F64 :=
    match FindStringSubmatch receiverRegex output with
    | some receiverMatch => parseFloat (receiverMatch.getD 1 [])
    | none => .fin 0
  (senderBitrate, receiverBitrate)

/-- The body of the loop of `pingIP`: the time of one match is added to the
total; a time that does not convert is logged and left out (`continue`). -/
def addPingTime (totalTime : F64) (m : List Text) : F64 :=
  match ParseFloat (m.getD 1 []) with
  | (pingTime, none) => totalTime.add pingTime
  | (_, some _) => totalTime

/-- The loop of `pingIP` over the matches, from a total of 0. -/
def totalPingTime (pingMatches : List (List Text)) : F64 :=
  pingMatches.foldl addPingTime (.fin 0)

/-- The parsing part of `pingIP`, from the output of `ping` to the average:
the total divided by the number of matches. -/
def averagePing (outputStr : Text) : F64 :=
  let pingMatches := FindAllStringSubmatch pingRegex outputStr
  (totalPingTime pingMatches).div (F64.ofNat pingMatches.length)

/-- What running an external command gives: an error (it could not run or
exited non-zero), or its standard output. -/
inductive CmdResult where
  | failed
  | output (out : Text)

/-- The function `runIperfCommand` of the program, given what `iperf3 -c serverIP` did; the flag
tells whether an error is returned. -/
def runIperfCommand : CmdResult → F64 × F64 × Bool
  | .failed => (.fin 0, .fin 0, true)
  | .output out => ((parseIperfOutput out).1, (parseIperfOutput out).2, false)

/-- The function `pingIP` of the program, given what `ping -c 5 serverIP` did; the flag tells
whether an error is returned. -/
def pingIP : CmdResult → F64 × Bool
  | .failed => (.fin 0, true)
  | .output out => (averagePing out, false)


/-! ## Shapes of probe output -/

/-- A non-negative decimal numeral, `ddd` or `ddd.ddd` (after the dot there may
be no digit). -/
structure Decimal where
  intDigits : Text
  fracDigits : Option Text

/-- The numeral as text. -/
def Decimal.text (d : Decimal) : Text :=
  d.intDigits ++ (match d.fracDigits with
    | none => []
    | some f => '.' :: f)

/-- The number the numeral denotes: the integer part plus the fraction. -/
def Decimal.value (d : Decimal) : ℚ :=
  (digitsVal d.intDigits : ℚ) + (match d.fracDigits with
    | none => 0
    | some f => (digitsVal f : ℚ) / 10 ^ f.length)

/-- The numeral has an integer digit and only digits. -/
def Decimal.wellFormed (d : Decimal) : Bool :=
  !d.intDigits.isEmpty && d.intDigits.all isDigit && (match d.fracDigits with
    | none => true
    | some f => f.all isDigit)

/-- The text does not go on with a digit or a dot. -/
def noNumberAhead : Text → Bool
  | [] => true
  | c :: _ => !isDigit c && !isDot c

/-- A unit that the patterns accept before `bits/sec`: none, `G` or `M`. -/
def isRateUnit (unit : Text) : Bool := unit = [] || unit = ['G'] || unit = ['M']

/-- A sender summary line `<a> <unit>bits/sec <retr> sender`, with the white
space between its parts. -/
def senderLine (a : Decimal) (unit ws1 ws2 retr ws3 : Text) : Text :=
  a.text ++ ws1 ++ unit ++ bitsPerSec ++ ws2 ++ retr ++ ws3 ++ senderWord

/-- A receiver summary line `<b> <unit>bits/sec receiver`, with the white space
between its parts. -/
def receiverLine (b : Decimal) (unit ws1 ws2 : Text) : Text :=
  b.text ++ ws1 ++ unit ++ bitsPerSec ++ ws2 ++ receiverWord

/-! ## Sample texts -/

/-- The end of an `iperf3` report: a sender and a receiver summary line. -/
def sampleIperfOutput : Text :=
  ("[ ID] Interval           Transfer     Bitrate         Retr\n" ++
   "[  5]   0.00-10.00  sec   147 MBytes   123 Mbits/sec    0             sender\n" ++
   "[  5]   0.00-10.00  sec   119 MBytes   100 Mbits/sec                  receiver\n").toList

/-- Whether `time=` occurs somewhere in the text. -/
def hasTimeEq : Text → Bool
  | [] => false
  | c :: cs => (stripLit timeEq (c :: cs)).isSome || hasTimeEq cs

/-- One occurrence `time=<t>` in the output of `ping`, with the text that
follows it up to the next occurrence (or to the end). -/
structure PingSample where
  time : Decimal
  after : Text

/-- The sample is a decimal numeral, and the text after it does not continue
the numeral and holds no `time=`. -/
def PingSample.wellPlaced (s : PingSample) : Bool :=
  s.time.wellFormed && noNumberAhead s.after && !hasTimeEq s.after

/-- The output of `ping` with the given occurrences: `lead`, then each
`time=<t>` and the text after it. -/
def pingText : Text → List PingSample → Text
  | lead, [] => lead
  | lead, s :: ss => lead ++ timeEq ++ s.time.text ++ pingText s.after ss

/-- Three replies of `ping`, with round-trip times 10.0, 20.0 and 30.0 ms. -/
def samplePingOutput : Text :=
  ("PING 10.0.0.1 (10.0.0.1) 56(84) bytes of data.\n" ++
   "64 bytes from 10.0.0.1: icmp_seq=1 ttl=64 time=10.0 ms\n" ++
   "64 bytes from 10.0.0.1: icmp_seq=2 ttl=64 time=20.0 ms\n" ++
   "64 bytes from 10.0.0.1: icmp_seq=3 ttl=64 time=30.0 ms\n").toList

/-- The text of `samplePingOutput` before its first occurrence of `time=`. -/
def samplePingLead : Text :=
  ("PING 10.0.0.1 (10.0.0.1) 56(84) bytes of data.\n" ++
   "64 bytes from 10.0.0.1: icmp_seq=1 ttl=64 ").toList

/-- The three occurrences of `samplePingOutput`. -/
def samplePingSamples : List PingSample :=
  [⟨⟨['1', '0'], some ['0']⟩, " ms\n64 bytes from 10.0.0.1: icmp_seq=2 ttl=64 ".toList⟩,
   ⟨⟨['2', '0'], some ['0']⟩, " ms\n64 bytes from 10.0.0.1: icmp_seq=3 ttl=64 ".toList⟩,
   ⟨⟨['3', '0'], some ['0']⟩, " ms\n".toList⟩]

/-- Replies of `ping` that carry no round-trip time. -/
def noTimePingOutput : Text :=
  ("PING 10.0.0.1 (10.0.0.1) 8(36) bytes of data.\n" ++
   "16 bytes from 10.0.0.1: icmp_seq=1 ttl=64\n" ++
   "16 bytes from 10.0.0.1: icmp_seq=2 ttl=64\n").toList

/-- The digits of `10 ^ 309`, beyond the range of float64. -/
def hugeDigits : Text := '1' :: List.replicate 309 '0'

/-- Two replies of `ping`, the first with a time beyond the range of float64,
the second with 10 ms. -/
def overflowPingOutput : Text :=
  "icmp_seq=1 ttl=64 time=".toList ++ hugeDigits ++
    " ms\nicmp_seq=2 ttl=64 time=10 ms\n".toList

/-- The text of `overflowPingOutput` before its first occurrence of `time=`. -/
def overflowLead : Text := "icmp_seq=1 ttl=64 ".toList

/-- The two occurrences of `overflowPingOutput`. -/
def overflowSamples : List PingSample :=
  [⟨⟨hugeDigits, none⟩, " ms\nicmp_seq=2 ttl=64 ".toList⟩, ⟨⟨['1', '0'], none⟩, " ms\n".toList⟩]

/-- A receiver summary line in Gbits/sec. -/
def gigabitOutput : Text := "1.5 Gbits/sec receiver".toList

/-- A receiver summary line in Kbits/sec. -/
def kilobitOutput : Text := "5 Kbits/sec receiver".toList

/-- A receiver summary line in bits/sec. -/
def plainBitOutput : Text := "500 bits/sec receiver".toList

/-- A report with a receiver summary line and no sender summary line. -/
def receiverOnlyOutput : Text :=
  "[  5]   0.00-10.00  sec   119 MBytes   100 Mbits/sec                  receiver\n".toList

/-! ## fmt and math -/

/-- The character of a decimal digit. -/
def digitChar (d : Nat) : Char := Char.ofNat (48 + d % 10)

/-- Decimal digits of a number, most significant first; `fuel` bounds their
count. -/
def natDigitsAux : Nat → Nat → Text → Text
  | 0, _, acc => acc
  | fuel + 1, n, acc =>
    if n / 10 = 0 then digitChar n :: acc
    else natDigitsAux fuel (n / 10) (digitChar n :: acc)

/-- Decimal digits of a number. -/
def natDigits (n : Nat) : Text := natDigitsAux (n + 1) n []

/-- Two decimal digits, zero padded. -/
def pad2 (n : Nat) : Text := [digitChar (n / 10), digitChar n]

/-- Three decimal digits, zero padded. -/
def pad3 (n : Nat) : Text := [digitChar (n / 100), digitChar (n / 10), digitChar n]

/-- Four decimal digits, zero padded. -/
def pad4 (n : Nat) : Text :=
  [digitChar (n / 1000), digitChar (n / 100), digitChar (n / 10), digitChar n]

/-- The number rounded to three decimals, a tie going to the even digit. -/
def round3 (q : ℚ) : ℚ := (roundHalfEven (q * 1000) : ℚ) / 1000

/-- Go's `fmt.Sprintf("%.3f", x)`. -/
def formatFixed3 : F64 → Text
  | .nan => ['N', 'a', 'N']
  | .posInf => ['+', 'I', 'n', 'f']
  | .negInf => ['-', 'I', 'n', 'f']
  | .fin q =>
    let n := (roundHalfEven (|q| * 1000)).toNat
    (if q < 0 then ['-'] else []) ++ natDigits (n / 1000) ++ '.' :: pad3 (n % 1000)

/-- The numeral that `%.3f` writes for a number that is not negative. -/
def fixedDecimal (q : ℚ) : Decimal :=
  ⟨natDigits ((roundHalfEven (q * 1000)).toNat / 1000),
    some (pad3 ((roundHalfEven (q * 1000)).toNat % 1000))⟩

/-- Go's `math.Round`: the nearest integer, a tie going away from zero. -/
def mathRound : F64 → F64
  | .fin q => .fin (if 0 ≤ q then (⌊q + 1 / 2⌋ : ℚ) else -(⌊-q + 1 / 2⌋ : ℚ))
  | x => x

/-- The function `roundDecimals` of the program: `math.Round(value*shift) / shift` with
`shift = math.Pow(10, decimals)`, the float64 of the power of ten (the program
asks for 3 and 4 decimals, where the power is exact). -/
def roundDecimals (value : F64) (decimals : Nat) : F64 :=
  let shift : F64 := roundF64 (10 ^ decimals)
  (mathRound (value.mul shift)).div shift

/-! ## encoding/json -/

/-- The record `NetworkData` of the program, the content of `netdata.json`. -/
structure NetworkData where
  Upload : Text
  Download : Text
  PingTime : Text
  TimeStamp : Text
  deriving DecidableEq

/-- Hexadecimal digit of a number below 16, lower case. -/
def hexChar (d : Nat) : Char :=
  if d % 16 < 10 then Char.ofNat (48 + d % 16) else Char.ofNat (87 + d % 16)

/-- How `encoding/json` writes one rune inside a string: quotes, backslashes,
control characters, `<`, `>`, `&` and the line separators are escaped. -/
def jsonEscapeChar (c : Char) : Text :=
  if c = '"' then ['\\', '"']
  else if c = '\\' then ['\\', '\\']
  else if c = '\n' then ['\\', 'n']
  else if c = '\r' then ['\\', 'r']
  else if c = '\t' then ['\\', 't']
  else if c.toNat < 32 ∨ c = '<' ∨ c = '>' ∨ c = '&' ∨ c.toNat = 8232 ∨ c.toNat = 8233 then
    ['\\', 'u', hexChar (c.toNat / 4096), hexChar (c.toNat / 256), hexChar (c.toNat / 16),
      hexChar c.toNat]
  else [c]

/-- A rune that a JSON string holds as itself: no quote, backslash, control
character, `<`, `>`, `&` or line separator. -/
def isPlain (c : Char) : Bool :=
  decide (32 ≤ c.toNat) && c != '"' && c != '\\' && c != '<' && c != '>' && c != '&' &&
    c.toNat != 8232 && c.toNat != 8233

/-- A JSON string literal. -/
def jsonQuote (s : Text) : Text := '"' :: (s.flatMap jsonEscapeChar ++ ['"'])

/-- The JSON name of the field `Upload`. -/
def uploadKey : Text := ['u', 'p', 'l', 'o', 'a', 'd']

/-- The JSON name of the field `Download`. -/
def downloadKey : Text := ['d', 'o', 'w', 'n', 'l', 'o', 'a', 'd']

/-- The JSON name of the field `PingTime`. -/
def pingTimeKey : Text := ['p', 'i', 'n', 'g', 'T', 'i', 'm', 'e']

/-- The JSON name of the field `TimeStamp`. -/
def timeStampKey : Text := ['t', 'i', 'm', 'e', 'S', 't', 'a', 'm', 'p']

/-- The indent of `MarshalIndent`, four spaces. -/
def indent4 : Text := [' ', ' ', ' ', ' ']

/-- One member `"key": "value"` of an indented object. -/
def jsonMember (key value : Text) : Text := jsonQuote key ++ ':' :: ' ' :: jsonQuote value

/-- Go's `json.MarshalIndent(data, "", "    ")` for a `NetworkData`: the four members, each
on a line of its own, between braces. -/
def marshalIndent (d : NetworkData) : Text :=
  '\x7b' :: '\n' :: (indent4 ++ (jsonMember uploadKey d.Upload ++ ',' :: '\n' ::
    (indent4 ++ (jsonMember downloadKey d.Download ++ ',' :: '\n' ::
      (indent4 ++ (jsonMember pingTimeKey d.PingTime ++ ',' :: '\n' ::
        (indent4 ++ (jsonMember timeStampKey d.TimeStamp ++ ['\n', '\x7d']))))))))

/-- The record whose fields need no escape. -/
def NetworkData.plain (d : NetworkData) : Bool :=
  d.Upload.all isPlain && d.Download.all isPlain && d.PingTime.all isPlain &&
    d.TimeStamp.all isPlain

/-- A JSON value. -/
inductive JVal where
  | null
  | bool (b : Bool)
  | num (raw : Text)
  | str (s : Text)
  | arr (items : List JVal)
  | obj (members : List (Text × JVal))

/-- JSON white space. -/
def isJsonSpace (c : Char) : Bool :=
  c.toNat = 32 || c.toNat = 9 || c.toNat = 13 || c.toNat = 10

/-- Drops leading JSON white space. -/
def skipWs (s : Text) : Text := s.dropWhile isJsonSpace

/-- The rune of a one-letter escape. -/
def unescape (e : Char) : Option Char :=
  if e = '"' then some '"'
  else if e = '\\' then some '\\'
  else if e = '/' then some '/'
  else if e = 'b' then some (Char.ofNat 8)
  else if e = 'f' then some (Char.ofNat 12)
  else if e = 'n' then some '\n'
  else if e = 'r' then some '\r'
  else if e = 't' then some '\t'
  else none

/-- The rune U+FFFD that stands for half of a surrogate pair on its own. -/
def replacementChar : Char := Char.ofNat 65533

/-- A high surrogate, `D800` to `DBFF`. -/
def isHighSurrogate (v : Nat) : Bool := decide (55296 ≤ v ∧ v ≤ 56319)

/-- A low surrogate, `DC00` to `DFFF`. -/
def isLowSurrogate (v : Nat) : Bool := decide (56320 ≤ v ∧ v ≤ 57343)

/-- The rune of a surrogate pair. -/
def joinSurrogates (hi lo : Nat) : Char := Char.ofNat (65536 + (hi - 55296) * 1024 + (lo - 56320))

/-- What an escape stands for: a rune, or the UTF-16 code unit of `\uXXXX`. -/
inductive Escape where
  | rune (c : Char)
  | unit (v : Nat)

/-- Reads an escape after its backslash: the number of characters it takes
and what it stands for. -/
def readEscape : Text → Option (Nat × Escape)
  | [] => none
  | e :: rest =>
    if e = 'u' then
      match rest with
      | h1 :: h2 :: h3 :: h4 :: _ =>
        match hexVal h1, hexVal h2, hexVal h3, hexVal h4 with
        | some x1, some x2, some x3, some x4 =>
          some (5, .unit (((x1 * 16 + x2) * 16 + x3) * 16 + x4))
        | _, _, _, _ => none
      | _ => none
    else (unescape e).map (fun ch => (1, .rune ch))

/-- Reads a string literal after its opening quote: the string and the text
after the closing quote.  `pending` is a high surrogate read from the escape
just before, which a low surrogate may still complete; `skip` counts the
characters of an escape that are still to be passed over. -/
def readStringBody : Option Nat → Nat → Text → Option (Text × Text)
  | _, _, [] => none
  | pending, skip + 1, _ :: cs => readStringBody pending skip cs
  | pending, 0, c :: cs =>
    let flush : Text := match pending with
      | some _ => [replacementChar]
      | none => []
    if c = '"' then some (flush, cs)
    else if c = '\\' then
      match readEscape cs with
      | none => none
      | some (n, .rune ch) =>
        (readStringBody none n cs).map (fun r => (flush ++ ch :: r.1, r.2))
      | some (n, .unit v) =>
        if isHighSurrogate v then
          (readStringBody (some v) n cs).map (fun r => (flush ++ r.1, r.2))
        else if isLowSurrogate v then
          match pending with
          | some hi =>
            (readStringBody none n cs).map (fun r => (joinSurrogates hi v :: r.1, r.2))
          | none => (readStringBody none n cs).map (fun r => (replacementChar :: r.1, r.2))
        else (readStringBody none n cs).map (fun r => (flush ++ Char.ofNat v :: r.1, r.2))
    else if c.toNat < 32 then none
    else (readStringBody none 0 cs).map (fun r => (flush ++ c :: r.1, r.2))

/-- Reads one or more digits. -/
def readDigits (s : Text) : Option (Text × Text) :=
  if s.takeWhile isDigit = [] then none else some (s.takeWhile isDigit, s.dropWhile isDigit)

/-- Reads a JSON number `-?(0|[1-9][0-9]*)(\.[0-9]+)?([eE][+-]?[0-9]+)?`: its
text and the text after it. -/
def readNumber (s : Text) : Option (Text × Text) :=
  let sign : Text := match s with
    | c :: _ => if c = '-' then ['-'] else []
    | [] => []
  let s1 := s.drop sign.length
  let intPart : Option (Text × Text) := match s1 with
    | c :: cs => if c = '0' then some (['0'], cs) else readDigits (c :: cs)
    | [] => none
  match intPart with
  | none => none
  | some (ip, s2) =>
    let fracPart : Option (Text × Text) := match s2 with
      | c :: cs =>
        if c = '.' then (readDigits cs).map (fun r => ('.' :: r.1, r.2)) else some ([], s2)
      | [] => some ([], [])
    match fracPart with
    | none => none
    | some (fp, s3) =>
      let expPart : Option (Text × Text) := match s3 with
        | c :: cs =>
          if c = 'e' ∨ c = 'E' then
            match cs with
            | d :: ds =>
              if d = '+' ∨ d = '-' then (readDigits ds).map (fun r => (c :: d :: r.1, r.2))
              else (readDigits (d :: ds)).map (fun r => (c :: r.1, r.2))
            | [] => none
          else some ([], s3)
        | [] => some ([], [])
      match expPart with
      | none => none
      | some (ep, s4) => some (sign ++ ip ++ fp ++ ep, s4)

mutual

/-- Reads a JSON value, white space before it allowed; `fuel` bounds the
number of nested and successive values. -/
def readValue : Nat → Text → Option (JVal × Text)
  | 0, _ => none
  | fuel + 1, s =>
    match skipWs s with
    | [] => none
    | c :: cs =>
      if c = '\x7b' then
        match skipWs cs with
        | [] => none
        | d :: ds =>
          if d = '\x7d' then some (.obj [], ds)
          else (readMembers fuel (d :: ds)).map (fun r => (.obj r.1, r.2))
      else if c = '[' then
        match skipWs cs with
        | [] => none
        | d :: ds =>
          if d = ']' then some (.arr [], ds)
          else (readElems fuel (d :: ds)).map (fun r => (.arr r.1, r.2))
      else if c = '"' then (readStringBody none 0 cs).map (fun r => (.str r.1, r.2))
      else if c = 't' then (stripLit ['r', 'u', 'e'] cs).map (fun r => (.bool true, r))
      else if c = 'f' then (stripLit ['a', 'l', 's', 'e'] cs).map (fun r => (.bool false, r))
      else if c = 'n' then (stripLit ['u', 'l', 'l'] cs).map (fun r => (.null, r))
      else (readNumber (c :: cs)).map (fun r => (.num r.1, r.2))

/-- Reads the members of an object, from the quote of a key to the closing
brace. -/
def readMembers : Nat → Text → Option (List (Text × JVal) × Text)
  | 0, _ => none
  | fuel + 1, s =>
    match s with
    | [] => none
    | q :: cs =>
      if q = '"' then
        match readStringBody none 0 cs with
        | none => none
        | some (key, r1) =>
          match skipWs r1 with
          | [] => none
          | c2 :: r2 =>
            if c2 = ':' then
              match readValue fuel r2 with
              | none => none
              | some (v, r3) =>
                match skipWs r3 with
                | [] => none
                | c3 :: r4 =>
                  if c3 = ',' then
                    (readMembers fuel (skipWs r4)).map (fun m => ((key, v) :: m.1, m.2))
                  else if c3 = '\x7d' then some ([(key, v)], r4)
                  else none
            else none
      else none

/-- Reads the elements of an array, from the first element to the closing
bracket. -/
def readElems : Nat → Text → Option (List JVal × Text)
  | 0, _ => none
  | fuel + 1, s =>
    match readValue fuel s with
    | none => none
    | some (v, r1) =>
      match skipWs r1 with
      | [] => none
      | c :: r2 =>
        if c = ',' then (readElems fuel r2).map (fun m => (v :: m.1, m.2))
        else if c = ']' then some ([v], r2)
        else none

end

/-- A whole JSON document: one value, white space around it allowed. -/
def parseJSON (data : Text) : Option JVal :=
  match readValue (2 * data.length + 2) data with
  | some (v, rest) => if skipWs rest = [] then some v else none
  | none => none

/-- Stores the value of one member into the record: the key is matched to a
field name without regard to ASCII case, a string is stored, `null` leaves the
field, any other value is a type error (`none`); an unknown key is ignored. -/
def setField (d : NetworkData) (key : Text) (v : JVal) : Option NetworkData :=
  let k := key.map lowerAscii
  let put (f : Text → NetworkData) : Option NetworkData :=
    match v with
    | .str s => some (f s)
    | .null => some d
    | _ => none
  if k = uploadKey.map lowerAscii then put (fun s => { d with Upload := s })
  else if k = downloadKey.map lowerAscii then put (fun s => { d with Download := s })
  else if k = pingTimeKey.map lowerAscii then put (fun s => { d with PingTime := s })
  else if k = timeStampKey.map lowerAscii then put (fun s => { d with TimeStamp := s })
  else some d

/-- Go's `json.Unmarshal(data, &netData)` into a zero `NetworkData`: the record, or
`none` when an error is returned (the text is not a JSON document, or a value
has the wrong type). -/
def jsonUnmarshal (data : Text) : Option NetworkData :=
  match parseJSON data with
  | some (.obj members) =>
    members.foldl (fun acc kv => acc.bind (fun d => setField d kv.1 kv.2)) (some ⟨[], [], [], []⟩)
  | some .null => some ⟨[], [], [], []⟩
  | _ => none

/-! ## time -/

/-- A Go `time.Time`: the civil date and time of day, with the offset of its
zone in minutes east of UTC. -/
structure Time where
  year : Nat
  month : Nat
  day : Nat
  hour : Nat
  minute : Nat
  second : Nat
  nanos : Nat
  offset : Int
  deriving DecidableEq

/-- Leap years of the Gregorian calendar. -/
def isLeap (y : Nat) : Bool := y % 4 = 0 && (y % 100 ≠ 0 || y % 400 = 0)

/-- Number of days of a month. -/
def daysIn (month year : Nat) : Nat :=
  if month = 2 then (if isLeap year then 29 else 28)
  else if month = 4 ∨ month = 6 ∨ month = 9 ∨ month = 11 then 30
  else 31

/-- What a clock can return: a date of the calendar with a four digit year, a
time of day, and a zone offset of less than a day. -/
def Time.valid (t : Time) : Bool :=
  t.year ≤ 9999 && 1 ≤ t.month && t.month ≤ 12 && 1 ≤ t.day && t.day ≤ daysIn t.month t.year &&
    t.hour < 24 && t.minute < 60 && t.second < 60 && t.nanos < 1000000000 &&
    -1440 < t.offset && t.offset < 1440

/-- The zone of `time.RFC3339`, `Z07:00`: `Z` for UTC, else the signed offset. -/
def formatZone (offset : Int) : Text :=
  if offset = 0 then ['Z']
  else (if offset < 0 then '-' else '+') ::
    (pad2 (offset.natAbs / 60) ++ ':' :: pad2 (offset.natAbs % 60))

/-- Go's `t.Format(time.RFC3339)`, layout `2006-01-02T15:04:05Z07:00`. -/
def formatRFC3339 (t : Time) : Text :=
  pad4 t.year ++ '-' :: (pad2 t.month ++ '-' :: (pad2 t.day ++ 'T' :: (pad2 t.hour ++
    ':' :: (pad2 t.minute ++ ':' :: (pad2 t.second ++ formatZone t.offset)))))

/-- The function `getnum(s, true)` of `time`: exactly two digits. -/
def getnum2 : Text → Option (Nat × Text)
  | a :: b :: r =>
    if isDigit a && isDigit b then some (digitVal a * 10 + digitVal b, r) else none
  | _ => none

/-- The function `getnum(s, false)` of `time`: one or two digits. -/
def getnum : Text → Option (Nat × Text)
  | a :: b :: r =>
    if isDigit a then
      (if isDigit b then some (digitVal a * 10 + digitVal b, r) else some (digitVal a, b :: r))
    else none
  | [a] => if isDigit a then some (digitVal a, []) else none
  | [] => none

/-- The year `2006` of a layout: exactly four digits. -/
def getyear : Text → Option (Nat × Text)
  | a :: b :: c :: d :: r =>
    if isDigit a && isDigit b && isDigit c && isDigit d then
      some (((digitVal a * 10 + digitVal b) * 10 + digitVal c) * 10 + digitVal d, r)
    else none
  | _ => none

/-- A literal character of a layout. -/
def expect (c : Char) : Text → Option Text
  | x :: r => if x = c then some r else none
  | [] => none

/-- Nanoseconds of the digits of a fraction: the first nine count. -/
def nanosOf (ds : Text) : Nat := digitsVal (ds.take 9) * 10 ^ (9 - (ds.take 9).length)

/-- A fractional second after the seconds, which `time.Parse` accepts although
the layout has none: the nanoseconds and the text after it. -/
def readFraction : Text → Nat × Text
  | c :: d :: r =>
    if (c = '.' ∨ c = ',') ∧ isDigit d = true then
      (nanosOf ((d :: r).takeWhile isDigit), (d :: r).dropWhile isDigit)
    else (0, c :: d :: r)
  | s => (0, s)

/-- The part `2006-01-02T15:04:05` common to both layouts, with the range
checks of `time.Parse` on the fields; the zone is still to be read. -/
def parseDateTime (s : Text) : Option (Time × Text) := do
  let (year, s) ← getyear s
  let s ← expect '-' s
  let (month, s) ← getnum2 s
  if month = 0 ∨ 12 < month then none
  let s ← expect '-' s
  let (day, s) ← getnum2 s
  let s ← expect 'T' s
  let (hour, s) ← getnum s
  if 24 ≤ hour then none
  let s ← expect ':' s
  let (minute, s) ← getnum2 s
  if 60 ≤ minute then none
  let s ← expect ':' s
  let (second, s) ← getnum2 s
  if 60 ≤ second then none
  let (nanos, s) := readFraction s
  if day < 1 ∨ daysIn month year < day then none
  some (⟨year, month, day, hour, minute, second, nanos, 0⟩, s)

/-- Go's `time.Parse("2006-01-02T15:04:05-07:00", s)`: the zone is a sign and
`hh:mm` (read here as two digits each). -/
def parseNumColonTZ (s : Text) : Option Time := do
  let (t, s) ← parseDateTime s
  match s with
  | sign :: rest =>
    if sign = '+' ∨ sign = '-' then do
      let (hh, s) ← getnum2 rest
      let s ← expect ':' s
      let (mm, s) ← getnum2 s
      if s ≠ [] then none
      let minutes : Int := (hh * 60 + mm : Nat)
      some { t with offset := if sign = '-' then -minutes else minutes }
    else none
  | [] => none

/-- Go's `time.Parse("2006-01-02T15:04:05Z", s)`: the text ends with a literal `Z`,
and the time is in UTC. -/
def parseLiteralZ (s : Text) : Option Time := do
  let (t, s) ← parseDateTime s
  let s ← expect 'Z' s
  if s ≠ [] then none
  some t

/-- The loop of `handleSpeedTestLatest` over its two layouts: the first that
parses gives the time. -/
def parseTimeStamp (s : Text) : Option Time :=
  match parseNumColonTZ s with
  | some t => some t
  | none => parseLiteralZ s

/-! ## The HTTP read path -/

/-- The record `SpeedTest` of the program. -/
structure SpeedTest where
  ID : Nat
  Ping : F64
  Download : F64
  Upload : F64
  ServerID : Nat
  ServerHost : Text
  ServerName : Text
  URL : Text
  Scheduled : Bool
  Failed : Bool
  CreatedAt : Time
  UpdatedAt : Time
  deriving DecidableEq

/-- The envelope `{message, data}` of the response. -/
structure ApiResponse where
  Message : Text
  Data : SpeedTest
  deriving DecidableEq

/-- The body of a response: plain text, or the JSON document of an envelope
(kept as the value that is encoded). -/
inductive Body where
  | text (s : Text)
  | json (r : ApiResponse)
  deriving DecidableEq

/-- What the handler writes: status, content type, `Location` header, body. -/
structure Response where
  status : Nat
  contentType : Text
  location : Option Text
  body : Body
  deriving DecidableEq

/-- The path `/api/speedtest/latest`. -/
def latestPath : Text := "/api/speedtest/latest".toList

/-- The content type of `http.Error`. -/
def plainText : Text := "text/plain; charset=utf-8".toList

/-- Go's `http.Error(w, msg, code)`. -/
def httpError (msg : Text) (code : Nat) : Response :=
  ⟨code, plainText, none, .text (msg ++ ['\n'])⟩

/-- Go's `http.Redirect(w, r, url, http.StatusMovedPermanently)` for a GET request. -/
def httpRedirect (url : Text) : Response :=
  ⟨301, "text/html; charset=utf-8".toList, some url,
    .text ("<a href=\"".toList ++ url ++ "\">Moved Permanently</a>.\n\n".toList)⟩

/-- Whether `json.Marshal` can encode the record: every number is finite. -/
def SpeedTest.encodable (s : SpeedTest) : Bool :=
  s.Ping.isFinite && s.Download.isFinite && s.Upload.isFinite

/-- The function `handleSpeedTestLatest` of the program, for a request to `path` while
`netdata.json` holds `netdata` (`none`: the file cannot be read). -/
def handleSpeedTestLatest (path : Text) (netdata : Option Text) : Response :=
  if path ≠ latestPath then httpRedirect latestPath
  else
    match netdata with
    | none => httpError "Failed to read file".toList 500
    | some data =>
      match jsonUnmarshal data with
      | none => httpError "Failed to decode JSON".toList 500
      | some netData =>
        match ParseFloat netData.PingTime with
        | (_, some _) => httpError "Failed to parse PingTime".toList 500
        | (pingTime, none) =>
          match ParseFloat netData.Download with
          | (_, some _) => httpError "Failed to parse Download".toList 500
          | (download, none) =>
            match ParseFloat netData.Upload with
            | (_, some _) => httpError "Failed to parse Upload".toList 500
            | (upload, none) =>
              match parseTimeStamp netData.TimeStamp with
              | none => httpError "Failed to parse TimeStamp".toList 500
              | some timeStamp =>
                let speedTest : SpeedTest :=
                  { ID := 1
                    Ping := roundDecimals pingTime 3
                    Download := roundDecimals download 4
                    Upload := roundDecimals upload 4
                    ServerID := 1
                    ServerHost := "iperf.lan".toList
                    ServerName := "iperf".toList
                    URL := "http://iperf.lan/api/speedtest.latest".toList
                    Scheduled := true
                    Failed := true
                    CreatedAt := timeStamp
                    UpdatedAt := timeStamp }
                if speedTest.encodable then
                  ⟨200, "application/json".toList, none, .json ⟨"ok".toList, speedTest⟩⟩
                else httpError "Failed to marshal JSON response".toList 500

/-- The response that serves a measurement: status 200 and the envelope
`{message: "ok", data: {...}}` with the given numbers and time. -/
def latestResponse (ping download upload : F64) (t : Time) : Response :=
  ⟨200, "application/json".toList, none, .json ⟨"ok".toList,
    { ID := 1
      Ping := ping
      Download := download
      Upload := upload
      ServerID := 1
      ServerHost := "iperf.lan".toList
      ServerName := "iperf".toList
      URL := "http://iperf.lan/api/speedtest.latest".toList
      Scheduled := true
      Failed := true
      CreatedAt := t
      UpdatedAt := t }⟩⟩

/-- Every stage of the handler succeeds on the file: it can be read, it is a
JSON document for a `NetworkData`, its three numbers convert and its time
stamp parses. -/
def stagesSucceed (netdata : Option Text) : Prop :=
  ∃ data netData timeStamp, netdata = some data ∧ jsonUnmarshal data = some netData ∧
    (ParseFloat netData.PingTime).2 = none ∧ (ParseFloat netData.Download).2 = none ∧
    (ParseFloat netData.Upload).2 = none ∧ parseTimeStamp netData.TimeStamp = some timeStamp

/-! ## Persistence and the measurement cycle -/

/-- What `ioutil.WriteFile` did: it wrote the data; it could not open the file,
which is left as it was; or it failed after writing the first `n` bytes of the
truncated file. -/
inductive WriteOutcome where
  | written
  | openFailed
  | shortWrite (n : Nat)

/-- Go's `ioutil.WriteFile("netdata.json", data, 0644)`: the file afterwards, and whether
an error is returned. -/
def writeFile (o : WriteOutcome) (data : Text) (old : Option Text) : Option Text × Bool :=
  match o with
  | .written => (some data, false)
  | .openFailed => (old, true)
  | .shortWrite n => (some (data.take n), true)

/-- The record that `saveJSON` writes. -/
def networkData (upload download pingTime : F64) (now : Time) : NetworkData :=
  { Upload := formatFixed3 upload
    Download := formatFixed3 download
    PingTime := formatFixed3 pingTime
    TimeStamp := formatRFC3339 now }

/-- The function `saveJSON` of the program, with the clock reading `now` and the outcome of the
write: `netdata.json` afterwards, and whether an error is returned. -/
def saveJSON (upload download pingTime : F64) (now : Time) (o : WriteOutcome)
    (netdata : Option Text) : Option Text × Bool :=
  writeFile o (marshalIndent (networkData upload download pingTime now)) netdata

/-- One run of the scheduled function of `main` (without the database): both
probes, then `saveJSON(sender, receiver, pingTime)`; errors are logged and the
run goes on.  The result is `netdata.json` afterwards. -/
def measurementCycle (iperf ping : CmdResult) (now : Time) (o : WriteOutcome)
    (netdata : Option Text) : Option Text :=
  let r := runIperfCommand iperf
  let p := pingIP ping
  (saveJSON r.1 r.2.1 p.1 now o netdata).1

/-! ## Sample measurements -/

/-- A report of `iperf3` with 940 Mbits/sec sent and 935 Mbits/sec received. -/
def fastIperfOutput : Text :=
  ("[  5]   0.00-10.00  sec  1.09 GBytes   940 Mbits/sec    0             sender\n" ++
   "[  5]   0.00-10.00  sec  1.09 GBytes   935 Mbits/sec                  receiver\n").toList

/-- A reply of `ping` with a round-trip time of 12.345 ms. -/
def fastPingOutput : Text :=
  "64 bytes from 10.0.0.1: icmp_seq=1 ttl=64 time=12.345 ms\n".toList

/-- The clock at 2023-05-01 10:00:00, two hours east of UTC. -/
def sampleTime : Time := ⟨2023, 5, 1, 10, 0, 0, 0, 120⟩

/-- The clock one hour later, some nanoseconds into the second. -/
def laterTime : Time := ⟨2023, 5, 1, 11, 0, 0, 250, 120⟩

/-- The measurement file written at `sampleTime` for 123, 100 Mbits/sec and
20 ms. -/
def earlierFile : Text :=
  ("\x7b\n    \"upload\": \"123.000\",\n    \"download\": \"100.000\",\n" ++
   "    \"pingTime\": \"20.000\",\n    \"timeStamp\": \"2023-05-01T10:00:00+02:00\"\n\x7d").toList

/-- A measurement file cut short in the middle of a member. -/
def truncatedFile : Text := "\x7b\n    \"upload\": \"940.0".toList

/-! ## Lemmas on the matcher -/

theorem starRests_head (p : Char → Bool) (s : Text) :
    ∃ tl, starRests p s = s.dropWhile p :: tl := by
  induction s with
  | nil => exact ⟨[], rfl⟩
  | cons c cs ih =>
    obtain ⟨tl, h⟩ := ih
    by_cases hc : p c = true
    · exact ⟨tl ++ [c :: cs], by simp [starRests, hc, h]⟩
    · exact ⟨[], by simp [starRests, hc]⟩

theorem matchAt_star (p : Char → Bool) (s : Text) :
    (Regex.star p).matchAt s = some ([], s.dropWhile p) := by
  obtain ⟨tl, h⟩ := starRests_head p s
  simp [Regex.matchAt, Regex.run, h]

theorem matchAt_plus (p : Char → Bool) (c : Char) (cs : Text) (hc : p c = true) :
    (Regex.plus p).matchAt (c :: cs) = some ([], cs.dropWhile p) := by
  obtain ⟨tl, h⟩ := starRests_head p cs
  simp [Regex.matchAt, Regex.run, h, hc]

theorem matchAt_opt_pos (p : Char → Bool) (c : Char) (cs : Text) (hc : p c = true) :
    (Regex.opt p).matchAt (c :: cs) = some ([], cs) := by
  simp [Regex.matchAt, Regex.run, hc]

theorem matchAt_opt_neg (p : Char → Bool) (s : Text) (hs : s.dropWhile p = s) :
    (Regex.opt p).matchAt s = some ([], s) := by
  cases s with
  | nil => simp [Regex.matchAt, Regex.run]
  | cons c cs =>
    by_cases hc : p c = true
    · rw [List.dropWhile_cons_of_pos hc] at hs
      have := congrArg List.length hs
      have h2 := (List.dropWhile_suffix (l := cs) p).length_le
      simp at this; omega
    · simp [Regex.matchAt, Regex.run, hc]

theorem stripLit_append (l s : Text) : stripLit l (l ++ s) = some s := by
  induction l with
  | nil => cases s <;> rfl
  | cons c cs ih => simp [stripLit, ih]

theorem matchAt_str (l s : Text) : (Regex.str l).matchAt (l ++ s) = some ([], s) := by
  simp [Regex.matchAt, Regex.run, stripLit_append]

theorem matchAt_seq {a b : Regex} {s : Text} {x y : Hit}
    (ha : a.matchAt s = some x) (hb : b.matchAt x.2 = some y) :
    (Regex.seq a b).matchAt s = some (x.1 ++ y.1, y.2) := by
  unfold Regex.matchAt at *
  cases hra : a.run s with
  | nil => simp [hra] at ha
  | cons x0 xs =>
    simp [hra] at ha
    subst ha
    cases hrb : b.run x0.2 with
    | nil => simp [hrb] at hb
    | cons y0 ys =>
      simp [hrb] at hb
      subst hb
      simp [Regex.run, hra, hrb]

theorem matchAt_group {a : Regex} {s : Text} {x : Hit} (ha : a.matchAt s = some x) :
    (Regex.group a).matchAt s = some (s.take (s.length - x.2.length) :: x.1, x.2) := by
  unfold Regex.matchAt at *
  cases hra : a.run s with
  | nil => simp [hra] at ha
  | cons x0 xs =>
    simp [hra] at ha
    subst ha
    simp [Regex.run, hra]

theorem matchAt_seq_str_none (l : Text) (b : Regex) (s : Text) (h : stripLit l s = none) :
    (Regex.seq (.str l) b).matchAt s = none := by
  simp [Regex.matchAt, Regex.run, h]

/-! ## Character facts -/

theorem isDigit_not_space {c : Char} (h : isDigit c = true) : isSpace c = false := by
  simp only [isDigit, isSpace, decide_eq_true_eq] at *
  simp only [Bool.or_eq_false_iff, decide_eq_false_iff_not]
  omega

theorem isSpace_not_digit {c : Char} (h : isSpace c = true) : isDigit c = false := by
  cases hd : isDigit c with
  | false => rfl
  | true => rw [isDigit_not_space hd] at h; cases h

theorem isDigit_not_dot {c : Char} (h : isDigit c = true) : isDot c = false := by
  simp only [isDigit, isDot, decide_eq_true_eq] at *
  simp only [decide_eq_false_iff_not]
  omega

theorem isSpace_not_dot {c : Char} (h : isSpace c = true) : isDot c = false := by
  simp only [isSpace, isDot, Bool.or_eq_true, decide_eq_true_eq] at *
  simp only [decide_eq_false_iff_not]
  omega

theorem dropWhile_run {p : Char → Bool} {l r : Text} (hl : l.all p = true)
    (hr : r.dropWhile p = r) : (l ++ r).dropWhile p = r := by
  rw [List.dropWhile_append_of_pos (by simpa using hl), hr]

theorem takeWhile_run {p : Char → Bool} {l r : Text} (hl : l.all p = true)
    (hr : r.dropWhile p = r) : (l ++ r).takeWhile p = l := by
  have h1 := List.takeWhile_append_dropWhile p (l ++ r)
  rw [dropWhile_run hl hr] at h1
  exact List.append_cancel_right h1

theorem dropWhile_digit_of_noNumberAhead {r : Text} (h : noNumberAhead r = true) :
    r.dropWhile isDigit = r := by
  cases r with
  | nil => rfl
  | cons c cs =>
    simp only [noNumberAhead, Bool.and_eq_true, Bool.not_eq_true'] at h
    simp [List.dropWhile, h.1]

theorem dropWhile_dot_of_noNumberAhead {r : Text} (h : noNumberAhead r = true) :
    r.dropWhile isDot = r := by
  cases r with
  | nil => rfl
  | cons c cs =>
    simp only [noNumberAhead, Bool.and_eq_true, Bool.not_eq_true'] at h
    simp [List.dropWhile, h.2]

/-- The number pattern takes a whole decimal numeral that is not continued. -/
theorem numberRe_matchAt (d : Decimal) (hd : d.wellFormed = true) (r : Text)
    (hr : noNumberAhead r = true) :
    numberRe.matchAt (d.text ++ r) = some ([], r) := by
  obtain ⟨ip, fr⟩ := d
  simp only [Decimal.wellFormed, Bool.and_eq_true, Bool.not_eq_true', List.isEmpty_eq_false] at hd
  obtain ⟨⟨hne, hip⟩, hfr⟩ := hd
  cases ip with
  | nil => simp at hne
  | cons c cs =>
    simp only [List.all_cons, Bool.and_eq_true] at hip
    cases fr with
    | none =>
      have h1 := matchAt_plus isDigit c (cs ++ r) hip.1
      rw [dropWhile_run hip.2 (dropWhile_digit_of_noNumberAhead hr)] at h1
      have h2 := matchAt_opt_neg isDot r (dropWhile_dot_of_noNumberAhead hr)
      have h3 := matchAt_star isDigit r
      rw [dropWhile_digit_of_noNumberAhead hr] at h3
      have := matchAt_seq h1 (matchAt_seq h2 h3)
      simpa [numberRe, Decimal.text] using this
    | some f =>
      have hdot : isDot '.' = true := by decide
      have hstop : ('.' :: (f ++ r)).dropWhile isDigit = '.' :: (f ++ r) := by
        simp [List.dropWhile, isDigit]
      have h1 := matchAt_plus isDigit c (cs ++ '.' :: (f ++ r)) hip.1
      rw [dropWhile_run hip.2 hstop] at h1
      have h2 := matchAt_opt_pos isDot '.' (f ++ r) hdot
      have h3 := matchAt_star isDigit (f ++ r)
      rw [dropWhile_run hfr (dropWhile_digit_of_noNumberAhead hr)] at h3
      have := matchAt_seq h1 (matchAt_seq h2 h3)
      simpa [numberRe, Decimal.text] using this

/-! ## Lemmas on the rounding to float64 -/

theorem abs_roundHalfEven_sub_le (q : ℚ) : |(roundHalfEven q : ℚ) - q| ≤ 1 / 2 := by
  have h1 : (⌊q⌋ : ℚ) ≤ q := Int.floor_le q
  have h2 : q < ⌊q⌋ + 1 := Int.lt_floor_add_one q
  unfold roundHalfEven
  rw [abs_le]
  split_ifs <;> push_cast <;> constructor <;> linarith

theorem roundHalfEven_nonneg {q : ℚ} (h : 0 ≤ q) : 0 ≤ roundHalfEven q := by
  have hf : 0 ≤ ⌊q⌋ := Int.floor_nonneg.mpr h
  unfold roundHalfEven
  split_ifs <;> omega

theorem roundHalfEven_le {q : ℚ} {N : Int} (h : q ≤ N) : roundHalfEven q ≤ N := by
  have hf : ⌊q⌋ ≤ N := Int.floor_le_iff.mpr (by linarith : q < N + 1)
  by_cases hN : ⌊q⌋ = N
  · have hq : q = N := le_antisymm h (by rw [← hN]; exact Int.floor_le q)
    subst hq
    simp [roundHalfEven]
  · have : ⌊q⌋ + 1 ≤ N := by omega
    unfold roundHalfEven
    split_ifs <;> omega

theorem le_roundHalfEven {q : ℚ} {N : Int} (h : (N : ℚ) ≤ q) : N ≤ roundHalfEven q := by
  have hf : N ≤ ⌊q⌋ := Int.le_floor.mpr h
  unfold roundHalfEven
  split_ifs <;> omega

theorem roundHalfEven_intCast (n : Int) : roundHalfEven (n : ℚ) = n := by
  simp [roundHalfEven]

theorem ulpExp_ge (q : ℚ) : -1074 ≤ ulpExp q := by
  unfold ulpExp
  have := le_max_right (Int.log 2 |q|) (-1022)
  omega

theorem abs_lt_two_zpow_ulpExp (q : ℚ) : |q| < 2 ^ (ulpExp q + 53) := by
  have h1 : |q| < ((2 : ℕ) : ℚ) ^ (Int.log 2 |q| + 1) :=
    Int.lt_zpow_succ_log_self (by norm_num) _
  have h2 : Int.log 2 |q| + 1 ≤ ulpExp q + 53 := by
    unfold ulpExp
    have := le_max_left (Int.log 2 |q|) (-1022)
    omega
  have h3 : ((2 : ℕ) : ℚ) ^ (Int.log 2 |q| + 1) ≤ (2 : ℚ) ^ (ulpExp q + 53) := by
    rw [Nat.cast_ofNat]
    exact zpow_le_zpow_right₀ (by norm_num) h2
  exact lt_of_lt_of_le h1 h3

theorem two_zpow_ulpExp_le {q : ℚ} (h : (2 : ℚ) ^ (-1022 : ℤ) ≤ |q|) :
    2 ^ (ulpExp q + 52) ≤ |q| := by
  have hpos : 0 < |q| := lt_of_lt_of_le (by positivity) h
  have h1 : (-1022 : ℤ) ≤ Int.log 2 |q| :=
    (Int.zpow_le_iff_le_log (by norm_num) hpos).mp (by simpa using h)
  have h2 : ulpExp q + 52 = Int.log 2 |q| := by
    unfold ulpExp
    rw [max_eq_left h1]
    ring
  rw [h2]
  simpa using Int.zpow_log_le_self (b := 2) (by norm_num) hpos

theorem ulpExp_le_of_lt {q : ℚ} {e : ℤ} (hq : q ≠ 0) (he : -1074 ≤ e)
    (h : |q| < 2 ^ (e + 53)) : ulpExp q ≤ e := by
  have hpos : 0 < |q| := abs_pos.mpr hq
  have h1 : Int.log 2 |q| < e + 53 :=
    (Int.lt_zpow_iff_log_lt (by norm_num) hpos).mp (by simpa using h)
  unfold ulpExp
  have := max_le (by omega : Int.log 2 |q| ≤ e + 52) (by omega : (-1022 : ℤ) ≤ e + 52)
  omega

theorem ulpExp_subnormal {q : ℚ} (hq : q ≠ 0) (h : |q| < 2 ^ (-1022 : ℤ)) :
    ulpExp q = -1074 :=
  le_antisymm (ulpExp_le_of_lt hq (le_refl _)
    (lt_of_lt_of_le h (zpow_le_zpow_right₀ (by norm_num) (by norm_num)))) (ulpExp_ge q)

theorem nearestF64_zero : nearestF64 0 = 0 := by
  simp [nearestF64, roundHalfEven]

theorem nearestF64_nonneg {q : ℚ} (h : 0 ≤ q) : 0 ≤ nearestF64 q := by
  unfold nearestF64
  have h1 : (0 : ℚ) ≤ q / 2 ^ ulpExp q := by positivity
  have h2 : (0 : ℚ) ≤ (roundHalfEven (q / 2 ^ ulpExp q) : ℚ) := by
    exact_mod_cast roundHalfEven_nonneg h1
  positivity

theorem abs_nearestF64_sub_le (q : ℚ) : |nearestF64 q - q| ≤ 2 ^ ulpExp q / 2 := by
  have hpos : (0 : ℚ) < 2 ^ ulpExp q := by positivity
  have h := abs_roundHalfEven_sub_le (q / 2 ^ ulpExp q)
  have e1 : nearestF64 q - q =
      ((roundHalfEven (q / 2 ^ ulpExp q) : ℚ) - q / 2 ^ ulpExp q) * 2 ^ ulpExp q := by
    unfold nearestF64
    field_simp
  rw [e1, abs_mul, abs_of_pos hpos]
  nlinarith

/-- In the normal range the rounding error is at most `2^-53` of the number. -/
theorem abs_nearestF64_sub_le_rel {q : ℚ} (h : (2 : ℚ) ^ (-1022 : ℤ) ≤ |q|) :
    |nearestF64 q - q| ≤ |q| / 2 ^ 53 := by
  have h1 := abs_nearestF64_sub_le q
  have h2 := two_zpow_ulpExp_le h
  have e : (2 : ℚ) ^ (ulpExp q + 52) = 2 ^ ulpExp q * 2 ^ 52 := by
    rw [zpow_add₀ (by norm_num)]
    norm_num
  rw [e] at h2
  have hpos : (0 : ℚ) < 2 ^ ulpExp q := by positivity
  generalize (2 : ℚ) ^ ulpExp q = U at *
  calc |nearestF64 q - q| ≤ U / 2 := h1
    _ = U * 2 ^ 52 / 2 ^ 53 := by norm_num; ring
    _ ≤ |q| / 2 ^ 53 := by gcongr

/-- The rounding error anywhere: `2^-53` of the number, or half the least
subnormal number. -/
theorem abs_nearestF64_sub_le_gen (q : ℚ) :
    |nearestF64 q - q| ≤ |q| / 2 ^ 53 + 2 ^ (-1075 : ℤ) := by
  have hη : (0 : ℚ) < 2 ^ (-1075 : ℤ) := by positivity
  by_cases h : (2 : ℚ) ^ (-1022 : ℤ) ≤ |q|
  · have := abs_nearestF64_sub_le_rel h
    linarith
  · by_cases hq : q = 0
    · subst hq
      simp only [nearestF64_zero, sub_self, abs_zero, zero_div, zero_add]
      exact hη.le
    · have h1 := abs_nearestF64_sub_le q
      rw [ulpExp_subnormal hq (not_le.mp h)] at h1
      have e : (2 : ℚ) ^ (-1074 : ℤ) / 2 = 2 ^ (-1075 : ℤ) := by
        rw [show (-1074 : ℤ) = -1075 + 1 by norm_num, zpow_add₀ (by norm_num)]
        norm_num
      rw [e] at h1
      have : (0 : ℚ) ≤ |q| / 2 ^ 53 := by positivity
      exact le_trans h1 (le_add_of_nonneg_left this)

/-- A number of at most 53 bits, scaled by a power of two from `2^-1074` on,
is a float64: rounding leaves it as it is. -/
theorem nearestF64_of_rep (m e : ℤ) (hm : |m| < 2 ^ 53) (he : -1074 ≤ e) :
    nearestF64 ((m : ℚ) * 2 ^ e) = (m : ℚ) * 2 ^ e := by
  by_cases hm0 : m = 0
  · subst hm0
    simp [nearestF64_zero]
  · have hq : (m : ℚ) * 2 ^ e ≠ 0 := by
      have : (m : ℚ) ≠ 0 := by exact_mod_cast hm0
      positivity
    have hlt : |(m : ℚ) * 2 ^ e| < 2 ^ (e + 53) := by
      have h1 : |(m : ℚ)| < 2 ^ 53 := by exact_mod_cast hm
      have hp : (0 : ℚ) < 2 ^ e := by positivity
      rw [abs_mul, abs_of_pos hp, zpow_add₀ (by norm_num), mul_comm]
      have : ((2 : ℚ) ^ (53 : ℤ)) = 2 ^ 53 := by norm_cast
      rw [this]
      exact mul_lt_mul_of_pos_left h1 hp
    have hE := ulpExp_le_of_lt hq he hlt
    unfold nearestF64
    generalize ulpExp ((m : ℚ) * 2 ^ e) = E at hE
    obtain ⟨k, hk⟩ := Int.eq_ofNat_of_zero_le (sub_nonneg.mpr hE)
    have he2 : e = E + k := by omega
    subst he2
    have hdiv : (m : ℚ) * 2 ^ (E + (k : ℤ)) / 2 ^ E = ((m * 2 ^ k : ℤ) : ℚ) := by
      rw [zpow_add₀ (by norm_num), zpow_natCast]
      push_cast
      field_simp
      ring
    rw [hdiv, roundHalfEven_intCast, zpow_add₀ (by norm_num), zpow_natCast]
    push_cast
    ring

/-- Rounding gives a float64: at most 53 bits, scaled by a power of two. -/
theorem nearestF64_rep (q : ℚ) :
    ∃ m e : ℤ, |m| < 2 ^ 53 ∧ -1074 ≤ e ∧ nearestF64 q = (m : ℚ) * 2 ^ e := by
  have hE := ulpExp_ge q
  have hlt := abs_lt_two_zpow_ulpExp q
  have hpos : (0 : ℚ) < 2 ^ ulpExp q := by positivity
  have hx : |q / 2 ^ ulpExp q| < 2 ^ 53 := by
    rw [abs_div, abs_of_pos hpos, div_lt_iff₀ hpos]
    rw [zpow_add₀ (by norm_num)] at hlt
    have : ((2 : ℚ) ^ (53 : ℤ)) = 2 ^ 53 := by norm_cast
    rw [this] at hlt
    linarith
  rw [abs_lt] at hx
  have h1 : roundHalfEven (q / 2 ^ ulpExp q) ≤ 2 ^ 53 :=
    roundHalfEven_le (by push_cast; linarith)
  have h2 : -(2 ^ 53) ≤ roundHalfEven (q / 2 ^ ulpExp q) :=
    le_roundHalfEven (by push_cast; linarith)
  unfold nearestF64
  generalize roundHalfEven (q / 2 ^ ulpExp q) = M at h1 h2
  generalize ulpExp q = E at hE
  by_cases hM : |M| < 2 ^ 53
  · exact ⟨M, E, hM, hE, rfl⟩
  · rw [abs_lt, not_and_or] at hM
    have e2 : (2 : ℚ) ^ (E + 1) = 2 ^ E * 2 := by
      rw [zpow_add₀ (by norm_num)]
      norm_num
    rcases hM with hM | hM
    · have : M = -(2 ^ 53) := by omega
      subst this
      refine ⟨-(2 ^ 52), E + 1, by norm_num, by omega, ?_⟩
      rw [e2]
      push_cast
      ring
    · have : M = 2 ^ 53 := by omega
      subst this
      refine ⟨2 ^ 52, E + 1, by norm_num, by omega, ?_⟩
      rw [e2]
      push_cast
      ring

theorem nearestF64_idem (q : ℚ) : nearestF64 (nearestF64 q) = nearestF64 q := by
  obtain ⟨m, e, hm, he, h⟩ := nearestF64_rep q
  rw [h, nearestF64_of_rep m e hm he]

theorem nearestF64_intCast (n : ℤ) (h : |n| < 2 ^ 53) : nearestF64 (n : ℚ) = n := by
  simpa using nearestF64_of_rep n 0 h (by norm_num)

theorem nearestF64_natCast (n : ℕ) (h : n < 2 ^ 53) : nearestF64 (n : ℚ) = n := by
  have := nearestF64_intCast (n : ℤ) (by rw [abs_of_nonneg (by positivity)]; exact_mod_cast h)
  simpa using this

theorem roundF64_of_lt {q : ℚ} (h : |q| < f64Bound) : roundF64 q = .fin (nearestF64 q) := by
  simp [roundF64, not_le.mpr h]

theorem roundF64_natCast (n : ℕ) (h : n < 2 ^ 53) : roundF64 (n : ℚ) = .fin n := by
  have h1 : ((n : ℚ)) < 2 ^ 53 := by exact_mod_cast h
  rw [roundF64_of_lt, nearestF64_natCast n h]
  rw [abs_of_nonneg (by positivity)]
  have : (2 : ℚ) ^ 53 < f64Bound := by norm_num [f64Bound]
  linarith

theorem roundF64_zero : roundF64 0 = .fin 0 := by
  simpa using roundF64_natCast 0 (by norm_num)

theorem eta_pos : (0 : ℚ) < 2 ^ (-1075 : ℤ) := by positivity

theorem eta_le : (2 : ℚ) ^ (-1075 : ℤ) ≤ 1 / 2 ^ 64 := by
  have h : (2 : ℚ) ^ (-1075 : ℤ) ≤ 2 ^ (-64 : ℤ) :=
    zpow_le_zpow_right₀ (by norm_num) (by norm_num)
  have e : (2 : ℚ) ^ (-64 : ℤ) = 1 / 2 ^ 64 := by
    rw [zpow_neg, one_div]
    norm_cast
  rwa [e] at h

/-- The rounding error of a number that is not negative. -/
theorem nearestF64_error {q : ℚ} (h : 0 ≤ q) :
    0 ≤ nearestF64 q ∧ nearestF64 q - q ≤ q / 2 ^ 53 + 2 ^ (-1075 : ℤ) ∧
      q - nearestF64 q ≤ q / 2 ^ 53 + 2 ^ (-1075 : ℤ) := by
  have h1 := abs_nearestF64_sub_le_gen q
  rw [abs_of_nonneg h, abs_le] at h1
  exact ⟨nearestF64_nonneg h, h1.2, by linarith [h1.1]⟩

/-- Summing in float64 from left to right: the running sum stays finite, and
its error grows by at most `4 * 2^-53` of the exact sum and four times half the
least subnormal number with each term. -/
theorem foldl_add_bound (ts : List ℚ) : ∀ (a A c d : ℚ), 0 ≤ a → 0 ≤ A → 0 ≤ c → 0 ≤ d →
    (∀ t ∈ ts, 0 ≤ t) → |a - A| ≤ c * A + d →
    c + 4 / 2 ^ 53 * ts.length ≤ 1 / 2 →
    d + 4 * 2 ^ (-1075 : ℤ) * ts.length ≤ 2 ^ 53 * 2 ^ (-1075 : ℤ) →
    A + ts.sum ≤ 2 ^ 1023 →
    ∃ b : ℚ, (ts.map roundF64).foldl F64.add (.fin a) = .fin b ∧ 0 ≤ b ∧
      |b - (A + ts.sum)| ≤
        (c + 4 / 2 ^ 53 * ts.length) * (A + ts.sum) +
          (d + 4 * 2 ^ (-1075 : ℤ) * ts.length) := by
  induction ts with
  | nil =>
    intro a A c d ha _ _ _ _ hE _ _ _
    exact ⟨a, rfl, ha, by simpa using hE⟩
  | cons t ts ih =>
    intro a A c d ha hA hc0 hd0 hts hE hc hd hB
    have ht : 0 ≤ t := hts t (List.mem_cons_self _ _)
    have hts2 : ∀ x ∈ ts, 0 ≤ x := fun x hx => hts x (List.mem_cons_of_mem _ hx)
    have hsum : 0 ≤ ts.sum := List.sum_nonneg hts2
    have hlen : (0 : ℚ) ≤ ts.length := Nat.cast_nonneg _
    simp only [List.length_cons, Nat.cast_add, Nat.cast_one, List.sum_cons] at hc hd hB ⊢
    have hη0 := eta_pos
    have hη1 := eta_le
    obtain ⟨hv0, hv1, hv2⟩ := nearestF64_error ht
    have hx0 : 0 ≤ a + nearestF64 t := by linarith
    obtain ⟨hy0, hy1, hy2⟩ := nearestF64_error hx0
    have hEb := abs_le.mp hE
    have hcA : c * A ≤ 1 / 2 * A := mul_le_mul_of_nonneg_right (by linarith) hA
    have hct : 0 ≤ c * t := mul_nonneg hc0 ht
    have hcA0 : 0 ≤ c * A := mul_nonneg hc0 hA
    have hbig : (2 : ℚ) ^ 1023 * 3 / 2 + 1 < f64Bound := by norm_num [f64Bound]
    generalize (2 : ℚ) ^ (-1075 : ℤ) = η at *
    generalize (2 : ℚ) ^ 1023 = B at *
    have hηl : 0 ≤ η * (ts.length : ℚ) := mul_nonneg hη0.le hlen
    have htlt : |t| < f64Bound := by
      rw [abs_of_nonneg ht]
      linarith
    have hxlt : |a + nearestF64 t| < f64Bound := by
      rw [abs_of_nonneg hx0]
      linarith
    have hstep : ((t :: ts).map roundF64).foldl F64.add (.fin a) =
        (ts.map roundF64).foldl F64.add (.fin (nearestF64 (a + nearestF64 t))) := by
      simp only [List.map_cons, List.foldl_cons, roundF64_of_lt htlt, F64.add,
        roundF64_of_lt hxlt]
    have hE2 : |nearestF64 (a + nearestF64 t) - (A + t)| ≤
        (c + 4 / 2 ^ 53) * (A + t) + (d + 4 * η) := by
      rw [abs_le]
      constructor <;> nlinarith
    obtain ⟨b, hb, hb0, hbE⟩ := ih (nearestF64 (a + nearestF64 t)) (A + t) (c + 4 / 2 ^ 53)
      (d + 4 * η) hy0 (by linarith) (by positivity) (by linarith) hts2 hE2
      (by linarith) (by linarith) (by linarith)
    refine ⟨b, by rw [hstep, hb], hb0, ?_⟩
    have e1 : A + (t + ts.sum) = A + t + ts.sum := by ring
    have e2 : (c + 4 / 2 ^ 53 * ((ts.length : ℚ) + 1)) * (A + t + ts.sum) +
        (d + 4 * η * ((ts.length : ℚ) + 1)) =
        (c + 4 / 2 ^ 53 + 4 / 2 ^ 53 * (ts.length : ℚ)) * (A + t + ts.sum) +
        (d + 4 * η + 4 * η * (ts.length : ℚ)) := by ring
    rw [e1, e2]
    exact hbE

/-- The mean computed in float64 of numbers that are not negative: it is
finite and within a relative `(2 n + 1) / 2^52` (and `2^-1072`) of the exact
mean, as long as the exact sum is at most `2^1023`. -/
theorem meanF64_bound (ts : List ℚ) (hts : ∀ t ∈ ts, 0 ≤ t) (hne : ts ≠ [])
    (hlen : ts.length ≤ 2 ^ 50) (hsum : ts.sum ≤ 2 ^ 1023) :
    ∃ m : ℚ, meanF64 (ts.map roundF64) = .fin m ∧
      |m - ts.sum / ts.length| ≤
        (2 * ts.length + 1) / 2 ^ 52 * (ts.sum / ts.length) + 2 ^ (-1072 : ℤ) := by
  have hn0 : ts.length ≠ 0 := by simpa [List.length_eq_zero] using hne
  have hn1 : (1 : ℚ) ≤ ts.length := by exact_mod_cast Nat.one_le_iff_ne_zero.mpr hn0
  have hn2 : (ts.length : ℚ) ≤ 2 ^ 50 := by exact_mod_cast hlen
  have hnq : (ts.length : ℚ) ≠ 0 := by exact_mod_cast hn0
  have hT0 : 0 ≤ ts.sum := List.sum_nonneg hts
  have hη0 := eta_pos
  have hη1 := eta_le
  have e8 : (2 : ℚ) ^ (-1072 : ℤ) = 8 * 2 ^ (-1075 : ℤ) := by
    rw [show (-1072 : ℤ) = 3 + -1075 by norm_num, zpow_add₀ (by norm_num)]
    norm_num
  have hηn : (2 : ℚ) ^ (-1075 : ℤ) * ts.length ≤ 2 ^ (-1075 : ℤ) * 2 ^ 50 :=
    mul_le_mul_of_nonneg_left hn2 hη0.le
  obtain ⟨b, hb, hb0, hbE⟩ := foldl_add_bound ts 0 0 0 0 le_rfl le_rfl le_rfl le_rfl hts
    (by simp) (by linarith) (by linarith) (by simpa using hsum)
  simp only [zero_add] at hbE
  have hbig : (2 : ℚ) ^ 1023 * 3 / 2 + 1 < f64Bound := by norm_num [f64Bound]
  have hnlt : ts.length < 2 ^ 53 := lt_of_le_of_lt hlen (by norm_num)
  have herr : ∀ x : ℚ, 0 ≤ x → 0 ≤ nearestF64 x ∧
      nearestF64 x - x ≤ x / 2 ^ 53 + 2 ^ (-1075 : ℤ) ∧
      x - nearestF64 x ≤ x / 2 ^ 53 + 2 ^ (-1075 : ℤ) := fun x hx => nearestF64_error hx
  rw [e8]
  generalize (2 : ℚ) ^ (-1075 : ℤ) = η at *
  generalize (2 : ℚ) ^ 1023 = B at *
  have hM0 : 0 ≤ ts.sum / ts.length := by positivity
  have hTM : ts.sum = ts.length * (ts.sum / ts.length) := by field_simp
  have hbq : b = ts.length * (b / ts.length) := by field_simp
  have hq0 : 0 ≤ b / ts.length := by positivity
  generalize ts.sum / (ts.length : ℚ) = M at *
  generalize hq : b / (ts.length : ℚ) = q at *
  have hnM : (ts.length : ℚ) * M ≤ 2 ^ 50 * M := mul_le_mul_of_nonneg_right hn2 hM0
  have hnM0 : 0 ≤ (ts.length : ℚ) * M := by positivity
  have hbT := abs_le.mp hbE
  rw [hTM] at hbT
  have hqM1 : q - M ≤ 4 / 2 ^ 53 * (ts.length * M) + 4 * η := by
    have : (ts.length : ℚ) * (q - M) ≤ ts.length * (4 / 2 ^ 53 * (ts.length * M) + 4 * η) := by
      nlinarith [hbT.2]
    exact le_of_mul_le_mul_left this (by linarith)
  have hqM2 : M - q ≤ 4 / 2 ^ 53 * (ts.length * M) + 4 * η := by
    have : (ts.length : ℚ) * (M - q) ≤ ts.length * (4 / 2 ^ 53 * (ts.length * M) + 4 * η) := by
      nlinarith [hbT.1]
    exact le_of_mul_le_mul_left this (by linarith)
  have hqb : q ≤ b := by
    rw [hbq]
    nlinarith
  have hqlt : |q| < f64Bound := by
    rw [abs_of_nonneg hq0]
    nlinarith
  obtain ⟨hm0, hm1, hm2⟩ := herr q hq0
  refine ⟨nearestF64 q, ?_, ?_⟩
  · simp only [meanF64, sumF64, hb, List.length_map, F64.ofNat, roundF64_natCast _ hnlt,
      F64.div, if_neg hnq, hq, roundF64_of_lt hqlt]
  · rw [abs_le]
    constructor <;> linarith

theorem roundF64_of_rep (m e : ℤ) (hm : |m| < 2 ^ 53) (he : -1074 ≤ e)
    (hb : |(m : ℚ) * 2 ^ e| < f64Bound) : roundF64 ((m : ℚ) * 2 ^ e) = .fin ((m : ℚ) * 2 ^ e) := by
  rw [roundF64_of_lt hb, nearestF64_of_rep m e hm he]

/-! ## Reading a decimal numeral -/

theorem digitsVal_foldl (b : Text) (n : Nat) :
    b.foldl (fun n c => 10 * n + digitVal c) n = n * 10 ^ b.length + digitsVal b := by
  induction b generalizing n with
  | nil => simp [digitsVal]
  | cons c cs ih =>
    simp only [List.foldl_cons, List.length_cons, digitsVal]
    rw [ih, ih (10 * 0 + digitVal c)]
    ring

theorem digitsVal_append (a b : Text) :
    digitsVal (a ++ b) = digitsVal a * 10 ^ b.length + digitsVal b := by
  simp only [digitsVal, List.foldl_append]
  exact digitsVal_foldl b _

theorem special_digit {c : Char} (cs : Text) (hc : isDigit c = true) :
    special (c :: cs) = none := by
  have h1 : c ≠ '+' := by rintro rfl; exact absurd hc (by decide)
  have h2 : c ≠ '-' := by rintro rfl; exact absurd hc (by decide)
  have h3 : lowerAscii c = c := by
    simp only [isDigit, decide_eq_true_eq] at hc
    simp only [lowerAscii]
    rw [if_neg (by omega)]
  have h4 : c ≠ 'i' := by rintro rfl; exact absurd hc (by decide)
  have h5 : c ≠ 'n' := by rintro rfl; exact absurd hc (by decide)
  simp [special, eqFold, h1, h2, h3, h4, h5]

theorem roundResult_small {q : ℚ} (h : q < f64Bound) :
    roundResult false q = (.fin (nearestF64 q), none) := by
  simp [roundResult, not_le.mpr h]

/-- The decimal reader on a decimal numeral. -/
theorem readDecimal_decimal (d : Decimal) (hd : d.wellFormed = true) :
    readDecimal d.text = some d.value := by
  obtain ⟨ip, fr⟩ := d
  simp only [Decimal.wellFormed, Bool.and_eq_true, Bool.not_eq_true', List.isEmpty_eq_false] at hd
  obtain ⟨⟨hne, hip⟩, hfr⟩ := hd
  cases ip with
  | nil => simp at hne
  | cons c cs =>
    cases fr with
    | none =>
      have ht : (c :: cs).takeWhile isDigit = c :: cs := by
        simpa using takeWhile_run (r := []) hip rfl
      have hdr : (c :: cs).dropWhile isDigit = [] := by
        simpa using dropWhile_run (r := []) hip rfl
      simp only [Decimal.text, List.append_nil, Decimal.value, add_zero]
      simp only [readDecimal, ht, hdr]
      simp [readExponent, decVal]
    | some f =>
      have hstop : ('.' :: f).dropWhile isDigit = '.' :: f := by
        simp [List.dropWhile, isDigit]
      have ht : (c :: cs ++ '.' :: f).takeWhile isDigit = c :: cs := takeWhile_run hip hstop
      have hdr : (c :: cs ++ '.' :: f).dropWhile isDigit = '.' :: f := dropWhile_run hip hstop
      have hft : f.takeWhile isDigit = f := by
        simpa using takeWhile_run (r := []) hfr rfl
      have hfd : f.dropWhile isDigit = [] := by
        simpa using dropWhile_run (r := []) hfr rfl
      have hdot : isDot '.' = true := by decide
      simp only [Decimal.text, Decimal.value]
      simp only [readDecimal, ht, hdr, hdot, if_true, hft, hfd]
      simp only [readExponent, reduceCtorEq, false_and, if_false, zero_sub, decVal,
        digitsVal_append, Option.some.injEq]
      have hp : (10 : ℚ) ^ f.length ≠ 0 := by positivity
      by_cases hl : f.length = 0
      · have : f = [] := List.length_eq_zero.mp hl
        subst this
        simp [digitsVal]
      · rw [if_neg (by omega)]
        simp only [neg_neg, Int.toNat_ofNat]
        push_cast
        field_simp

/-- A digit or a dot. -/
theorem decimal_text_chars (d : Decimal) (hd : d.wellFormed = true) :
    ∀ c ∈ d.text, isDigit c = true ∨ c = '.' := by
  obtain ⟨ip, fr⟩ := d
  simp only [Decimal.wellFormed, Bool.and_eq_true, Bool.not_eq_true', List.isEmpty_eq_false] at hd
  obtain ⟨⟨-, hip⟩, hfr⟩ := hd
  rw [List.all_eq_true] at hip
  intro c hc
  cases fr with
  | none =>
    simp only [Decimal.text, List.append_nil] at hc
    exact Or.inl (hip c hc)
  | some f =>
    rw [List.all_eq_true] at hfr
    simp only [Decimal.text, List.mem_append, List.mem_cons] at hc
    rcases hc with h | h | h
    · exact Or.inl (hip c h)
    · exact Or.inr h
    · exact Or.inl (hfr c h)

theorem not_underscore_of_numeric {c : Char} (h : isDigit c = true ∨ c = '.') : c ≠ '_' := by
  rintro rfl
  rcases h with h | h
  · exact absurd h (by decide)
  · exact absurd h (by decide)

theorem isHexPrefixed_numeric (s : Text) (h : ∀ c ∈ s, isDigit c = true ∨ c = '.') :
    isHexPrefixed s = false := by
  rcases s with _ | ⟨a, _ | ⟨b, _ | ⟨c, s⟩⟩⟩
  · rfl
  · rfl
  · rfl
  · have hb := h b (by simp)
    have h1 : b ≠ 'x' := by
      rintro rfl
      rcases hb with h | h
      · exact absurd h (by decide)
      · exact absurd h (by decide)
    have h2 : b ≠ 'X' := by
      rintro rfl
      rcases hb with h | h
      · exact absurd h (by decide)
      · exact absurd h (by decide)
    simp [isHexPrefixed, h1, h2]

/-- The function `ParseFloat` reads a decimal numeral as its value, rounded into float64. -/
theorem ParseFloat_decimal_eq (d : Decimal) (hd : d.wellFormed = true) :
    ParseFloat d.text = roundResult false d.value := by
  have hchars := decimal_text_chars d hd
  have hrd := readDecimal_decimal d hd
  have hhex := isHexPrefixed_numeric d.text hchars
  have hany : d.text.any (fun c => decide (c = '_')) = false := by
    rw [List.any_eq_false]
    intro c hc
    simpa using not_underscore_of_numeric (hchars c hc)
  have hfilter : d.text.filter (fun c => decide (c ≠ '_')) = d.text := by
    rw [List.filter_eq_self]
    intro c hc
    simpa using not_underscore_of_numeric (hchars c hc)
  have hhead : ∃ c cs, d.text = c :: cs ∧ isDigit c = true := by
    obtain ⟨ip, fr⟩ := d
    simp only [Decimal.wellFormed, Bool.and_eq_true, Bool.not_eq_true',
      List.isEmpty_eq_false] at hd
    obtain ⟨⟨hne, hip⟩, -⟩ := hd
    cases ip with
    | nil => simp at hne
    | cons c cs =>
      simp only [List.all_cons, Bool.and_eq_true] at hip
      exact ⟨c, _, rfl, hip.1⟩
  obtain ⟨c, cs, hcs, hc⟩ := hhead
  have h1 : c ≠ '+' := by rintro rfl; exact absurd hc (by decide)
  have h2 : c ≠ '-' := by rintro rfl; exact absurd hc (by decide)
  have hsp : special d.text = none := by rw [hcs]; exact special_digit _ hc
  unfold ParseFloat
  rw [hsp]
  simp only [hany, Bool.false_and, Bool.false_eq_true, if_false, hfilter]
  rw [hcs] at hhex hrd ⊢
  simp only [h1, h2, or_self, if_false, decide_False, hhex, Bool.false_eq_true, hrd]

/-- Within the range the numeral is read as the float64 nearest to its value,
without error. -/
theorem ParseFloat_decimal (d : Decimal) (hd : d.wellFormed = true)
    (hv : d.value < f64Bound) : ParseFloat d.text = (.fin (nearestF64 d.value), none) := by
  rw [ParseFloat_decimal_eq d hd, roundResult_small hv]

/-- Beyond the range the result is `+Inf` and `ErrRange`. -/
theorem ParseFloat_decimal_range (d : Decimal) (hd : d.wellFormed = true)
    (hv : f64Bound ≤ d.value) : ParseFloat d.text = (.posInf, some .range) := by
  rw [ParseFloat_decimal_eq d hd]
  simp [roundResult, hv]

theorem Decimal.value_nonneg (d : Decimal) : 0 ≤ d.value := by
  unfold Decimal.value
  split <;> positivity

theorem f64Bound_pos : 0 < f64Bound := by norm_num [f64Bound]

/-- The function `parseFloat` reads a decimal numeral as its value rounded to float64. -/
theorem parseFloat_decimal (d : Decimal) (hd : d.wellFormed = true) :
    parseFloat d.text = roundF64 d.value := by
  have h0 := d.value_nonneg
  unfold parseFloat roundF64
  rw [abs_of_nonneg h0]
  by_cases hv : d.value < f64Bound
  · rw [ParseFloat_decimal d hd hv, if_neg (not_le.mpr hv)]
  · have hv2 := not_lt.mp hv
    rw [ParseFloat_decimal_range d hd hv2, if_pos hv2, if_pos (lt_of_lt_of_le f64Bound_pos hv2)]

/-! ## The leftmost match -/

theorem findStringSubmatch_at (re : Regex) (n : Nat) (s : Text) (h : Hit)
    (hn : n ≤ s.length) (hpre : ∀ i < n, re.matchAt (s.drop i) = none)
    (hat : re.matchAt (s.drop n) = some h) :
    FindStringSubmatch re s = some (submatches (s.drop n) h) := by
  induction n generalizing s with
  | zero =>
    cases s with
    | nil =>
      simp only [List.drop_zero] at hat
      simp [FindStringSubmatch, hat]
    | cons c cs =>
      simp only [List.drop_zero] at hat
      simp [FindStringSubmatch, hat]
  | succ n ih =>
    cases s with
    | nil => simp at hn
    | cons c cs =>
      have h0 := hpre 0 (Nat.succ_pos n)
      simp only [List.drop_zero] at h0
      simp only [FindStringSubmatch, h0]
      exact ih cs (by simpa using hn) (fun i hi => by simpa using hpre (i + 1) (by omega))
        (by simpa using hat)

theorem findStringSubmatch_none (re : Regex) (s : Text)
    (h : ∀ i ≤ s.length, re.matchAt (s.drop i) = none) : FindStringSubmatch re s = none := by
  induction s with
  | nil => simpa [FindStringSubmatch] using h 0 (le_refl _)
  | cons c cs ih =>
    have h0 := h 0 (Nat.zero_le _)
    simp only [List.drop_zero] at h0
    simp only [FindStringSubmatch, h0]
    exact ih (fun i hi => by simpa using h (i + 1) (by simpa using hi))


/-! ## The summary lines -/

theorem noNumberAhead_spaces_unit (ws unit X : Text) (hws : ws.all isSpace = true)
    (hu : isRateUnit unit = true) : noNumberAhead (ws ++ (unit ++ (bitsPerSec ++ X))) = true := by
  cases ws with
  | nil =>
    simp only [isRateUnit, Bool.or_eq_true, decide_eq_true_eq] at hu
    rcases hu with (rfl | rfl) | rfl <;> simp [noNumberAhead, bitsPerSec, isDigit, isDot]
  | cons w ws =>
    simp only [List.all_cons, Bool.and_eq_true] at hws
    simp [noNumberAhead, isSpace_not_digit hws.1, isSpace_not_dot hws.1]

theorem take_matched (a r : Text) : (a ++ r).take ((a ++ r).length - r.length) = a := by
  simp

/-- The two capture groups of a summary line, up to the unit. -/
theorem rate_unit_matchAt (a : Decimal) (ha : a.wellFormed = true) (unit ws1 X : Text)
    (h1 : ws1.all isSpace = true) (hu : isRateUnit unit = true) :
    (Regex.seq (.group numberRe) (.seq (.star isSpace) (.group (.opt isGM)))).matchAt
      (a.text ++ (ws1 ++ (unit ++ (bitsPerSec ++ X)))) =
        some ([a.text, unit], bitsPerSec ++ X) := by
  have hnum := matchAt_group
    (numberRe_matchAt a ha (ws1 ++ (unit ++ (bitsPerSec ++ X)))
      (noNumberAhead_spaces_unit ws1 unit X h1 hu))
  rw [take_matched] at hnum
  have hM : (unit ++ (bitsPerSec ++ X)).dropWhile isSpace = unit ++ (bitsPerSec ++ X) := by
    simp only [isRateUnit, Bool.or_eq_true, decide_eq_true_eq] at hu
    rcases hu with (rfl | rfl) | rfl <;> simp [List.dropWhile, bitsPerSec, isSpace]
  have hs := matchAt_star isSpace (ws1 ++ (unit ++ (bitsPerSec ++ X)))
  rw [dropWhile_run h1 hM] at hs
  have hg : (Regex.group (.opt isGM)).matchAt (unit ++ (bitsPerSec ++ X)) =
      some ([unit], bitsPerSec ++ X) := by
    simp only [isRateUnit, Bool.or_eq_true, decide_eq_true_eq] at hu
    rcases hu with (rfl | rfl) | rfl
    · have := matchAt_group (matchAt_opt_neg isGM (bitsPerSec ++ X)
        (by simp [bitsPerSec, List.dropWhile, isGM]))
      simpa using this
    · have := matchAt_group (matchAt_opt_pos isGM 'G' (bitsPerSec ++ X) (by decide))
      simpa using this
    · have := matchAt_group (matchAt_opt_pos isGM 'M' (bitsPerSec ++ X) (by decide))
      simpa using this
  have := matchAt_seq hnum (matchAt_seq hs hg)
  simpa using this

theorem matchAt_seq3 {a b c : Regex} {s : Text} {x y : Hit}
    (ha : (Regex.seq a (.seq b c)).matchAt s = some x) :
    ∀ d : Regex, d.matchAt x.2 = some y →
      (Regex.seq a (.seq b (.seq c d))).matchAt s = some (x.1 ++ y.1, y.2) := by
  intro d hd
  have h := matchAt_seq ha hd
  unfold Regex.matchAt at *
  simpa [Regex.run, List.flatMap_assoc, List.map_flatMap, List.flatMap_map, List.append_assoc]
    using h

/-- The sender pattern on a sender summary line. -/
theorem senderRegex_line (a : Decimal) (ha : a.wellFormed = true)
    (unit ws1 ws2 retr ws3 post : Text) (hu : isRateUnit unit = true)
    (h1 : ws1.all isSpace = true) (h2 : ws2.all isSpace = true)
    (hr : retr ≠ [] ∧ retr.all isDigit = true) (h3 : ws3 ≠ [] ∧ ws3.all isSpace = true) :
    senderRegex.matchAt (senderLine a unit ws1 ws2 retr ws3 ++ post) =
      some ([a.text, unit], post) := by
  obtain ⟨hrne, hrd⟩ := hr
  obtain ⟨h3ne, h3s⟩ := h3
  cases retr with
  | nil => exact absurd rfl hrne
  | cons d ds =>
  cases ws3 with
  | nil => exact absurd rfl h3ne
  | cons w ws =>
  simp only [List.all_cons, Bool.and_eq_true] at hrd h3s
  have hhead := rate_unit_matchAt a ha unit ws1
    (ws2 ++ (d :: (ds ++ (w :: (ws ++ (senderWord ++ post)))))) h1 hu
  have hb := matchAt_str bitsPerSec (ws2 ++ (d :: (ds ++ (w :: (ws ++ (senderWord ++ post))))))
  have hd : (d :: (ds ++ (w :: (ws ++ (senderWord ++ post))))).dropWhile isSpace =
      d :: (ds ++ (w :: (ws ++ (senderWord ++ post)))) := by
    simp [List.dropWhile, isDigit_not_space hrd.1]
  have hs2 := matchAt_star isSpace (ws2 ++ (d :: (ds ++ (w :: (ws ++ (senderWord ++ post))))))
  rw [dropWhile_run h2 hd] at hs2
  have hw : (w :: (ws ++ (senderWord ++ post))).dropWhile isDigit =
      w :: (ws ++ (senderWord ++ post)) := by
    simp [List.dropWhile, isSpace_not_digit h3s.1]
  have hp := matchAt_plus isDigit d (ds ++ (w :: (ws ++ (senderWord ++ post)))) hrd.1
  rw [dropWhile_run hrd.2 hw] at hp
  have hsw : (senderWord ++ post).dropWhile isSpace = senderWord ++ post := by
    simp [senderWord, List.dropWhile, isSpace]
  have hp2 := matchAt_plus isSpace w (ws ++ (senderWord ++ post)) h3s.1
  rw [dropWhile_run h3s.2 hsw] at hp2
  have hend := matchAt_str senderWord post
  have htail := matchAt_seq hb (matchAt_seq hs2 (matchAt_seq hp (matchAt_seq hp2 hend)))
  have := matchAt_seq3 hhead _ htail
  simpa [senderRegex, senderLine, List.append_assoc] using this

/-- The receiver pattern on a receiver summary line. -/
theorem receiverRegex_line (b : Decimal) (hb : b.wellFormed = true) (unit ws1 ws2 post : Text)
    (hu : isRateUnit unit = true)
    (h1 : ws1.all isSpace = true) (h2 : ws2 ≠ [] ∧ ws2.all isSpace = true) :
    receiverRegex.matchAt (receiverLine b unit ws1 ws2 ++ post) =
      some ([b.text, unit], post) := by
  obtain ⟨h2ne, h2s⟩ := h2
  cases ws2 with
  | nil => exact absurd rfl h2ne
  | cons w ws =>
  simp only [List.all_cons, Bool.and_eq_true] at h2s
  have hhead := rate_unit_matchAt b hb unit ws1 (w :: (ws ++ (receiverWord ++ post))) h1 hu
  have hbits := matchAt_str bitsPerSec (w :: (ws ++ (receiverWord ++ post)))
  have hrw : (receiverWord ++ post).dropWhile isSpace = receiverWord ++ post := by
    simp [receiverWord, List.dropWhile, isSpace]
  have hp := matchAt_plus isSpace w (ws ++ (receiverWord ++ post)) h2s.1
  rw [dropWhile_run h2s.2 hrw] at hp
  have hend := matchAt_str receiverWord post
  have htail := matchAt_seq hbits (matchAt_seq hp hend)
  have := matchAt_seq3 hhead _ htail
  simpa [receiverRegex, receiverLine, List.append_assoc] using this

/-! ## Throughput parsing -/

/-- C1: when the output holds a sender summary line `<a> Mbits/sec <retr> sender`
and a receiver summary line `<b> Mbits/sec receiver`, with `a` and `b` decimal
numerals, and neither pattern matches earlier in the output, `parseIperfOutput`
returns `(a, b)` as float64, each the float64 nearest to the numeral: sender
rate first, receiver rate second. -/
theorem parseIperfOutput_summary_lines
    (output preS postS preR postR : Text) (a b : Decimal)
    (ws1 ws2 retr ws3 ws4 ws5 : Text)
    (hS : output = preS ++ senderLine a ['M'] ws1 ws2 retr ws3 ++ postS)
    (hR : output = preR ++ receiverLine b ['M'] ws4 ws5 ++ postR)
    (ha : a.wellFormed = true) (hb : b.wellFormed = true)
    (h1 : ws1.all isSpace = true) (h2 : ws2.all isSpace = true)
    (hretr : retr ≠ [] ∧ retr.all isDigit = true)
    (h3 : ws3 ≠ [] ∧ ws3.all isSpace = true)
    (h4 : ws4.all isSpace = true) (h5 : ws5 ≠ [] ∧ ws5.all isSpace = true)
    (hfirstS : ∀ i < preS.length, senderRegex.matchAt (output.drop i) = none)
    (hfirstR : ∀ i < preR.length, receiverRegex.matchAt (output.drop i) = none) :
    parseIperfOutput output = (roundF64 a.value, roundF64 b.value) := by
  have hdS : output.drop preS.length = senderLine a ['M'] ws1 ws2 retr ws3 ++ postS := by
    rw [hS, List.append_assoc, List.drop_left]
  have hdR : output.drop preR.length = receiverLine b ['M'] ws4 ws5 ++ postR := by
    rw [hR, List.append_assoc, List.drop_left]
  have hmS := findStringSubmatch_at senderRegex preS.length output _
    (by rw [hS]; simp) hfirstS
    (by rw [hdS]; exact senderRegex_line a ha ['M'] ws1 ws2 retr ws3 postS rfl h1 h2 hretr h3)
  have hmR := findStringSubmatch_at receiverRegex preR.length output _
    (by rw [hR]; simp) hfirstR
    (by rw [hdR]; exact receiverRegex_line b hb ['M'] ws4 ws5 postR rfl h4 h5)
  simp only [parseIperfOutput, hmS, hmR, submatches, List.getD_cons_succ,
    List.getD_cons_zero, parseFloat_decimal a ha, parseFloat_decimal b hb]

set_option maxRecDepth 100000 in
theorem parseIperfOutput_summary_lines_witness :
    parseIperfOutput sampleIperfOutput = (.fin 123, .fin 100) := by
  have e1 : digitsVal ['1', '2', '3'] = 123 := by decide
  have e2 : digitsVal ['1', '0', '0'] = 100 := by decide
  have h := parseIperfOutput_summary_lines sampleIperfOutput
    ("[ ID] Interval           Transfer     Bitrate         Retr\n" ++
      "[  5]   0.00-10.00  sec   147 MBytes   ").toList
    ("\n[  5]   0.00-10.00  sec   119 MBytes   100 Mbits/sec                  receiver\n").toList
    (("[ ID] Interval           Transfer     Bitrate         Retr\n" ++
      "[  5]   0.00-10.00  sec   147 MBytes   123 Mbits/sec    0             sender\n" ++
      "[  5]   0.00-10.00  sec   119 MBytes   ").toList)
    ['\n']
    ⟨['1', '2', '3'], none⟩ ⟨['1', '0', '0'], none⟩
    [' '] "    ".toList ['0'] "             ".toList [' '] "                  ".toList
    (by decide) (by decide) (by decide) (by decide)
    (by decide) (by decide) (by decide) (by decide) (by decide) (by decide)
    (by decide) (by decide)
  have r1 : roundF64 (123 : ℚ) = .fin 123 := by simpa using roundF64_natCast 123 (by norm_num)
  have r2 : roundF64 (100 : ℚ) = .fin 100 := by simpa using roundF64_natCast 100 (by norm_num)
  rw [h]
  norm_num [Decimal.value, e1, e2, r1, r2]


/-! ## Latency parsing -/

theorem stripLit_timeEq_gap (c : Char) (g X : Text) (hg : hasTimeEq (c :: g) = false)
    (hX : X = [] ∨ ∃ Y, X = timeEq ++ Y) : stripLit timeEq (c :: g ++ X) = none := by
  simp only [hasTimeEq, Bool.or_eq_false_iff] at hg
  have h0 : stripLit timeEq (c :: g) = none := by
    cases h : stripLit timeEq (c :: g) with
    | none => rfl
    | some r => rw [h] at hg; simp at hg
  clear hg
  rcases g with _ | ⟨c2, _ | ⟨c3, _ | ⟨c4, _ | ⟨c5, g⟩⟩⟩⟩
  · rcases hX with rfl | ⟨Y, rfl⟩ <;> simp [timeEq, stripLit]
  · rcases hX with rfl | ⟨Y, rfl⟩ <;> simp [timeEq, stripLit]
  · rcases hX with rfl | ⟨Y, rfl⟩ <;> simp [timeEq, stripLit]
  · rcases hX with rfl | ⟨Y, rfl⟩ <;> simp [timeEq, stripLit]
  · simp only [timeEq, stripLit] at h0
    rcases hX with rfl | ⟨Y, rfl⟩ <;> simp only [timeEq, stripLit, List.cons_append] <;>
      split_ifs at h0 ⊢ <;> rfl

theorem findAllFrom_none (re : Regex) (c : Char) (cs : Text)
    (h : re.matchAt (c :: cs) = none) :
    findAllFrom re 0 (c :: cs) = findAllFrom re 0 cs := by
  simp [findAllFrom, h]

theorem findAllFrom_some (re : Regex) (c : Char) (cs : Text) (h : Hit)
    (hm : re.matchAt (c :: cs) = some h) :
    findAllFrom re 0 (c :: cs) =
      submatches (c :: cs) h :: findAllFrom re ((c :: cs).length - h.2.length - 1) cs := by
  simp [findAllFrom, hm]

theorem F64.add_fin (a b : ℚ) : (F64.fin a).add (.fin b) = roundF64 (a + b) := rfl

theorem findAllFrom_gap (g X : Text) (hg : hasTimeEq g = false)
    (hX : X = [] ∨ ∃ Y, X = timeEq ++ Y) :
    findAllFrom pingRegex 0 (g ++ X) = findAllFrom pingRegex 0 X := by
  induction g with
  | nil => rfl
  | cons c g ih =>
    have hn := matchAt_seq_str_none timeEq (.group numberRe) _ (stripLit_timeEq_gap c g X hg hX)
    have hg2 : hasTimeEq g = false := by
      simp only [hasTimeEq, Bool.or_eq_false_iff] at hg
      exact hg.2
    have : pingRegex.matchAt (c :: (g ++ X)) = none := hn
    rw [List.cons_append, findAllFrom_none _ _ _ this]
    exact ih hg2

theorem findAllFrom_skip (re : Regex) (u s : Text) :
    findAllFrom re u.length (u ++ s) = findAllFrom re 0 s := by
  induction u with
  | nil => rfl
  | cons c u ih => simpa [findAllFrom] using ih

theorem noNumberAhead_pingText (after : Text) (ss : List PingSample)
    (h : noNumberAhead after = true) : noNumberAhead (pingText after ss) = true := by
  cases ss with
  | nil => simpa [pingText] using h
  | cons s ss =>
    cases after with
    | nil => simp [pingText, timeEq, noNumberAhead, isDigit, isDot]
    | cons c cs => simpa [pingText, noNumberAhead] using h

theorem pingText_shape (after : Text) (ss : List PingSample) :
    ∃ X, pingText after ss = after ++ X ∧ (X = [] ∨ ∃ Y, X = timeEq ++ Y) := by
  cases ss with
  | nil => exact ⟨[], by simp [pingText], Or.inl rfl⟩
  | cons s ss =>
    exact ⟨timeEq ++ (s.time.text ++ pingText s.after ss), by simp [pingText],
      Or.inr ⟨_, rfl⟩⟩

theorem pingRegex_sample (t : Decimal) (ht : t.wellFormed = true) (R : Text)
    (hR : noNumberAhead R = true) :
    pingRegex.matchAt (timeEq ++ (t.text ++ R)) = some ([t.text], R) := by
  have h1 := matchAt_str timeEq (t.text ++ R)
  have h2 := matchAt_group (numberRe_matchAt t ht R hR)
  rw [take_matched] at h2
  have := matchAt_seq h1 h2
  simpa [pingRegex] using this

/-- The matches of the ping pattern are the occurrences, in order. -/
theorem findAll_pingText (lead : Text) (samples : List PingSample)
    (hlead : hasTimeEq lead = false) (hs : ∀ s ∈ samples, s.wellPlaced = true) :
    FindAllStringSubmatch pingRegex (pingText lead samples) =
      samples.map (fun s => [timeEq ++ s.time.text, s.time.text]) := by
  unfold FindAllStringSubmatch
  induction samples generalizing lead with
  | nil =>
    have := findAllFrom_gap lead [] hlead (Or.inl rfl)
    simpa [pingText, findAllFrom] using this
  | cons s ss ih =>
    have hsw := hs s (List.mem_cons_self _ _)
    simp only [PingSample.wellPlaced, Bool.and_eq_true, Bool.not_eq_true'] at hsw
    obtain ⟨⟨hwf, hna⟩, hae⟩ := hsw
    have hrest := ih s.after hae (fun x hx => hs x (List.mem_cons_of_mem _ hx))
    have hR := noNumberAhead_pingText s.after ss hna
    have hm := pingRegex_sample s.time hwf (pingText s.after ss) hR
    have hgap := findAllFrom_gap lead (timeEq ++ (s.time.text ++ pingText s.after ss)) hlead
      (Or.inr ⟨_, rfl⟩)
    simp only [pingText, List.append_assoc, hgap]
    have hskip := findAllFrom_skip pingRegex (['i', 'm', 'e', '='] ++ s.time.text)
      (pingText s.after ss)
    have hm2 : pingRegex.matchAt ('t' :: (['i', 'm', 'e', '='] ++ (s.time.text ++
        pingText s.after ss))) = some ([s.time.text], pingText s.after ss) := hm
    have hcons : timeEq ++ (s.time.text ++ pingText s.after ss) =
        't' :: (['i', 'm', 'e', '='] ++ (s.time.text ++ pingText s.after ss)) := rfl
    rw [hcons, findAllFrom_some _ _ _ _ hm2]
    simp only [List.map_cons, submatches]
    have hlen : ('t' :: (['i', 'm', 'e', '='] ++ (s.time.text ++ pingText s.after ss))).length -
        (pingText s.after ss).length - 1 = (['i', 'm', 'e', '='] ++ s.time.text).length := by
      simp only [List.length_cons, List.length_append]
      omega
    have htake : List.take (('t' :: (['i', 'm', 'e', '='] ++ (s.time.text ++
        pingText s.after ss))).length - (pingText s.after ss).length)
        ('t' :: (['i', 'm', 'e', '='] ++ (s.time.text ++ pingText s.after ss))) =
        timeEq ++ s.time.text := by
      have := take_matched (timeEq ++ s.time.text) (pingText s.after ss)
      simpa [timeEq, List.append_assoc] using this
    rw [hlen, htake]
    rw [← List.append_assoc, hskip, hrest]

/-- The loop of `pingIP` adds up, in float64 and from left to right, the times
that convert. -/
theorem foldl_addPingTime (samples : List PingSample)
    (hs : ∀ s ∈ samples, s.time.wellFormed = true) (acc : F64) :
    (samples.map (fun s => [timeEq ++ s.time.text, s.time.text])).foldl addPingTime acc =
      ((samples.filter (fun s => decide (s.time.value < f64Bound))).map
        (fun s => roundF64 s.time.value)).foldl F64.add acc := by
  induction samples generalizing acc with
  | nil => rfl
  | cons s ss ih =>
    have hwf := hs s (List.mem_cons_self _ _)
    have ih2 := fun acc => ih (fun x hx => hs x (List.mem_cons_of_mem _ hx)) acc
    by_cases hv : s.time.value < f64Bound
    · have hr : roundF64 s.time.value = .fin (nearestF64 s.time.value) :=
        roundF64_of_lt (by rw [abs_of_nonneg s.time.value_nonneg]; exact hv)
      simp only [List.map_cons, List.foldl_cons, addPingTime, List.getD_cons_succ,
        List.getD_cons_zero, ParseFloat_decimal s.time hwf hv, ih2]
      simp [List.filter_cons, hv, hr]
    · simp only [List.map_cons, List.foldl_cons, addPingTime, List.getD_cons_succ,
        List.getD_cons_zero, ParseFloat_decimal_range s.time hwf (not_lt.mp hv), ih2]
      simp [List.filter_cons, hv]

theorem wellFormed_of_wellPlaced {samples : List PingSample}
    (hs : ∀ s ∈ samples, s.wellPlaced = true) : ∀ s ∈ samples, s.time.wellFormed = true := by
  intro s h
  have h1 := hs s h
  simp only [PingSample.wellPlaced, Bool.and_eq_true] at h1
  exact h1.1.1

/-- C3: for an output of `ping` with the occurrences `time=<t_1>` ...
`time=<t_n>`, `n >= 1`, each `t_i` a decimal numeral in the range of float64,
the latency computed by the parsing part of `pingIP` is the arithmetic mean of
all the occurrences in float64: the float64 nearest to each `t_i`, summed from
left to right and divided by `n`.  With at most `2^50` occurrences and
`t_1 + ... + t_n` at most `2^1023` it is a finite number within a relative
`(2 n + 1) / 2^52` (and `2^-1072`) of the exact mean `(t_1 + ... + t_n) / n`. -/
theorem averagePing_mean (lead : Text) (samples : List PingSample)
    (hlead : hasTimeEq lead = false)
    (hs : ∀ s ∈ samples, s.wellPlaced = true ∧ s.time.value < f64Bound)
    (hne : samples ≠ []) :
    averagePing (pingText lead samples) =
      meanF64 (samples.map (fun s => roundF64 s.time.value)) ∧
    (samples.length ≤ 2 ^ 50 → (samples.map (fun s => s.time.value)).sum ≤ 2 ^ 1023 →
      ∃ m : ℚ, averagePing (pingText lead samples) = .fin m ∧
        |m - (samples.map (fun s => s.time.value)).sum / samples.length| ≤
          (2 * samples.length + 1) / 2 ^ 52 *
            ((samples.map (fun s => s.time.value)).sum / samples.length) +
          2 ^ (-1072 : ℤ)) := by
  have hwp : ∀ s ∈ samples, s.wellPlaced = true := fun s h => (hs s h).1
  have hwf := wellFormed_of_wellPlaced hwp
  have hnn : ∀ t ∈ samples.map (fun s => s.time.value), 0 ≤ t := by
    intro t ht
    obtain ⟨s, -, rfl⟩ := List.mem_map.mp ht
    exact s.time.value_nonneg
  have hall : ∀ s ∈ samples, decide (s.time.value < f64Bound) = true :=
    fun s h => decide_eq_true (hs s h).2
  have h1 := findAll_pingText lead samples hlead hwp
  have h2 := foldl_addPingTime samples hwf (.fin 0)
  rw [List.filter_eq_self.mpr hall] at h2
  have heq : averagePing (pingText lead samples) =
      meanF64 (samples.map (fun s => roundF64 s.time.value)) := by
    simp only [averagePing, h1, totalPingTime, h2, meanF64, sumF64, List.length_map]
  refine ⟨heq, fun hlen hsum => ?_⟩
  have hne2 : samples.map (fun s => s.time.value) ≠ [] := by simpa using hne
  have hlen2 : (samples.map (fun s => s.time.value)).length ≤ 2 ^ 50 := by
    rw [List.length_map]
    exact hlen
  have hbound := meanF64_bound (samples.map (fun s => s.time.value)) hnn hne2
  have hbound2 := hbound hlen2
  obtain ⟨m, hm, hb⟩ := hbound2 hsum
  rw [List.map_map] at hm
  rw [List.length_map] at hb
  exact ⟨m, by rw [heq]; exact hm, hb⟩

set_option maxRecDepth 100000 in
theorem averagePing_mean_witness :
    averagePing samplePingOutput = .fin 20 ∧
    ∃ m : ℚ, averagePing samplePingOutput = .fin m ∧
      |m - 20| ≤ 7 / 2 ^ 52 * 20 + 2 ^ (-1072 : ℤ) := by
  have e1 : digitsVal ['1', '0'] = 10 := by decide
  have e2 : digitsVal ['2', '0'] = 20 := by decide
  have e3 : digitsVal ['3', '0'] = 30 := by decide
  have e0 : digitsVal ['0'] = 0 := by decide
  have htext : pingText samplePingLead samplePingSamples = samplePingOutput := by decide
  have hsum : (samplePingSamples.map (fun s => s.time.value)).sum = 60 := by
    norm_num [samplePingSamples, Decimal.value, e1, e2, e3, e0]
  have hlen : samplePingSamples.length = 3 := rfl
  have h := averagePing_mean samplePingLead samplePingSamples (by decide)
    (by
      intro s hs
      simp only [samplePingSamples, List.mem_cons, List.mem_singleton, List.not_mem_nil,
        or_false] at hs
      rcases hs with rfl | rfl | rfl
      · exact ⟨by decide, by norm_num [Decimal.value, e1, e0, f64Bound]⟩
      · exact ⟨by decide, by norm_num [Decimal.value, e2, e0, f64Bound]⟩
      · exact ⟨by decide, by norm_num [Decimal.value, e3, e0, f64Bound]⟩)
    (by simp [samplePingSamples])
  rw [htext] at h
  obtain ⟨heq, hb⟩ := h
  have r10 : roundF64 (10 : ℚ) = .fin 10 := by simpa using roundF64_natCast 10 (by norm_num)
  have r20 : roundF64 (20 : ℚ) = .fin 20 := by simpa using roundF64_natCast 20 (by norm_num)
  have r30 : roundF64 (30 : ℚ) = .fin 30 := by simpa using roundF64_natCast 30 (by norm_num)
  have r60 : roundF64 (60 : ℚ) = .fin 60 := by simpa using roundF64_natCast 60 (by norm_num)
  have r3 : roundF64 (3 : ℚ) = .fin 3 := by simpa using roundF64_natCast 3 (by norm_num)
  constructor
  · rw [heq]
    norm_num [samplePingSamples, Decimal.value, e1, e2, e3, e0, meanF64, sumF64, F64.add,
      F64.div, F64.ofNat, r10, r20, r30, r60, r3]
  · have hb2 := hb (by rw [hlen]; norm_num) (by rw [hsum]; norm_num)
    rw [hsum, hlen] at hb2
    obtain ⟨m, hm, hmb⟩ := hb2
    refine ⟨m, hm, ?_⟩
    norm_num at hmb ⊢
    exact hmb


/-! ## Units, missing samples, skipped samples, defaults -/

theorem digitsVal_zeros (n : Nat) : digitsVal (List.replicate n '0') = 0 := by
  induction n with
  | zero => rfl
  | succ n ih =>
    have h0 : digitsVal ['0'] = 0 := by decide
    rw [List.replicate_succ, ← List.singleton_append, digitsVal_append, ih, h0]
    simp

theorem zeros_all_digit (n : Nat) : (List.replicate n '0').all isDigit = true := by
  induction n with
  | zero => rfl
  | succ n ih =>
    rw [List.replicate_succ, List.all_cons, ih]
    decide

theorem hugeDigits_wellFormed : Decimal.wellFormed ⟨hugeDigits, none⟩ = true := by
  have h1 : isDigit '1' = true := by decide
  simp only [Decimal.wellFormed, hugeDigits, List.isEmpty_cons, Bool.not_false, Bool.true_and,
    List.all_cons, zeros_all_digit, Bool.and_true, h1]

theorem hugeDigits_value : digitsVal hugeDigits = 10 ^ 309 := by
  have : hugeDigits = ['1'] ++ List.replicate 309 '0' := rfl
  rw [this, digitsVal_append, digitsVal_zeros]
  have h1 : digitsVal ['1'] = 1 := by decide
  simp only [h1, List.length_replicate, one_mul, add_zero]

/-- C2: the unit is matched and not used. For a receiver summary line
`<x> <unit>bits/sec receiver` with no unit, `G` or `M`, that is the first match
of the receiver pattern, the receiver rate is the number `x` as printed (the
float64 nearest to it), whatever the unit. -/
theorem parseIperfOutput_unit_not_applied
    (output preR postR : Text) (x : Decimal) (unit ws1 ws2 : Text)
    (hR : output = preR ++ receiverLine x unit ws1 ws2 ++ postR)
    (hu : isRateUnit unit = true) (hx : x.wellFormed = true)
    (h1 : ws1.all isSpace = true) (h2 : ws2 ≠ [] ∧ ws2.all isSpace = true)
    (hfirstR : ∀ i < preR.length, receiverRegex.matchAt (output.drop i) = none) :
    (parseIperfOutput output).2 = roundF64 x.value := by
  have hdR : output.drop preR.length = receiverLine x unit ws1 ws2 ++ postR := by
    rw [hR, List.append_assoc, List.drop_left]
  have hmR := findStringSubmatch_at receiverRegex preR.length output _
    (by rw [hR]; simp) hfirstR
    (by rw [hdR]; exact receiverRegex_line x hx unit ws1 ws2 postR hu h1 h2)
  simp only [parseIperfOutput, hmR, submatches, List.getD_cons_succ,
    List.getD_cons_zero, parseFloat_decimal x hx]

theorem parseIperfOutput_unit_not_applied_witness :
    (parseIperfOutput gigabitOutput).2 = .fin (3 / 2) ∧
    (parseIperfOutput plainBitOutput).2 = .fin 500 ∧
    parseIperfOutput kilobitOutput = (.fin 0, .fin 0) := by
  have e1 : digitsVal ['1'] = 1 := by decide
  have e5 : digitsVal ['5'] = 5 := by decide
  have e500 : digitsVal ['5', '0', '0'] = 500 := by decide
  have hG := parseIperfOutput_unit_not_applied gigabitOutput [] [] ⟨['1'], some ['5']⟩
    ['G'] [' '] [' '] (by decide) (by decide) (by decide) (by decide) (by decide) (by simp)
  have hP := parseIperfOutput_unit_not_applied plainBitOutput [] [] ⟨['5', '0', '0'], none⟩
    [] [' '] [' '] (by decide) (by decide) (by decide) (by decide) (by decide) (by simp)
  have hS3 : FindStringSubmatch senderRegex kilobitOutput = none := by decide
  have hR3 : FindStringSubmatch receiverRegex kilobitOutput = none := by decide
  have r1 : roundF64 (3 / 2 : ℚ) = .fin (3 / 2) := by
    have h := roundF64_of_rep 3 (-1) (by norm_num) (by norm_num)
      (by rw [abs_of_nonneg (by positivity)]; norm_num [f64Bound])
    norm_num at h
    exact h
  have r2 : roundF64 (500 : ℚ) = .fin 500 := by simpa using roundF64_natCast 500 (by norm_num)
  refine ⟨?_, ?_, ?_⟩
  · rw [hG]
    norm_num [Decimal.value, e1, e5, r1]
  · rw [hP]
    norm_num [Decimal.value, e500, r2]
  · simp only [parseIperfOutput, hS3, hR3]

/-- C4: on every output of `ping` in which the pattern `time=<number>` finds
nothing, `pingIP` returns `NaN` as the average, and no error. -/
theorem pingIP_no_samples_nan (out : Text) (h : FindAllStringSubmatch pingRegex out = []) :
    pingIP (.output out) = (.nan, false) := by
  simp [pingIP, averagePing, h, totalPingTime, F64.ofNat, roundF64_zero, F64.div]

theorem pingIP_no_samples_nan_witness : pingIP (.output noTimePingOutput) = (.nan, false) :=
  pingIP_no_samples_nan noTimePingOutput (by
    have := findAll_pingText noTimePingOutput [] (by decide) (by simp)
    simpa [pingText] using this)

/-- C5: a time that does not convert (it is beyond the range of float64) is
left out of the total and still counted in the divisor: for an output with the
occurrences `time=<t_1>` ... `time=<t_n>`, the result is the float64 sum of
the times that convert, divided by `n`, the number of all occurrences. -/
theorem averagePing_counts_skipped (lead : Text) (samples : List PingSample)
    (hlead : hasTimeEq lead = false) (hs : ∀ s ∈ samples, s.wellPlaced = true) :
    averagePing (pingText lead samples) =
      (sumF64 ((samples.filter (fun s => decide (s.time.value < f64Bound))).map
        (fun s => roundF64 s.time.value))).div (F64.ofNat samples.length) := by
  have h1 := findAll_pingText lead samples hlead hs
  have h2 := foldl_addPingTime samples (wellFormed_of_wellPlaced hs) (.fin 0)
  simp only [averagePing, h1, totalPingTime, h2, sumF64, List.length_map]

set_option maxRecDepth 100000 in
theorem averagePing_counts_skipped_witness : averagePing overflowPingOutput = .fin 5 := by
  have htext : pingText overflowLead overflowSamples = overflowPingOutput := by
    simp only [pingText, overflowLead, overflowSamples, overflowPingOutput, Decimal.text,
      List.append_nil, List.append_assoc]
    rfl
  have h := averagePing_counts_skipped overflowLead overflowSamples (by decide)
    (by
      intro s hs
      simp only [overflowSamples, List.mem_cons, List.mem_singleton, List.not_mem_nil,
        or_false] at hs
      rcases hs with rfl | rfl
      · simp only [PingSample.wellPlaced, hugeDigits_wellFormed, Bool.true_and]
        decide
      · decide)
  rw [htext] at h
  rw [h]
  have e10 : digitsVal ['1', '0'] = 10 := by decide
  have v1 : ¬ (Decimal.value ⟨hugeDigits, none⟩ < f64Bound) := by
    norm_num [Decimal.value, hugeDigits_value, f64Bound]
  have v2 : Decimal.value ⟨['1', '0'], none⟩ < f64Bound := by
    norm_num [Decimal.value, e10, f64Bound]
  have r10 : roundF64 (10 : ℚ) = .fin 10 := by simpa using roundF64_natCast 10 (by norm_num)
  have r2 : roundF64 (2 : ℚ) = .fin 2 := by simpa using roundF64_natCast 2 (by norm_num)
  have r5 : roundF64 (5 : ℚ) = .fin 5 := by simpa using roundF64_natCast 5 (by norm_num)
  simp only [overflowSamples, List.filter_cons, v1, v2, decide_False, decide_True,
    Bool.false_eq_true, if_false, if_true, List.filter_nil, List.map_cons, List.map_nil,
    List.length_cons, List.length_nil, sumF64, List.foldl_cons, List.foldl_nil]
  norm_num [Decimal.value, e10, F64.add, F64.div, F64.ofNat, r10, r2, r5]

/-- C6: `parseIperfOutput` always returns a pair of rates. The sender rate is 0
when the sender pattern does not match and the number of the sender match
otherwise; the receiver rate is 0 when the receiver pattern does not match and
the number of the receiver match otherwise. Each rate is decided by its own
pattern alone: two outputs on which the sender pattern finds the same have the
same sender rate, whatever the receiver pattern finds, and likewise for the
receiver rate. -/
theorem parseIperfOutput_defaults (output : Text) :
    (FindStringSubmatch senderRegex output = none → (parseIperfOutput output).1 = .fin 0) ∧
    (FindStringSubmatch receiverRegex output = none → (parseIperfOutput output).2 = .fin 0) ∧
    (∀ m, FindStringSubmatch senderRegex output = some m →
      (parseIperfOutput output).1 = parseFloat (m.getD 1 [])) ∧
    (∀ m, FindStringSubmatch receiverRegex output = some m →
      (parseIperfOutput output).2 = parseFloat (m.getD 1 [])) ∧
    (∀ other, FindStringSubmatch senderRegex other = FindStringSubmatch senderRegex output →
      (parseIperfOutput other).1 = (parseIperfOutput output).1) ∧
    (∀ other, FindStringSubmatch receiverRegex other = FindStringSubmatch receiverRegex output →
      (parseIperfOutput other).2 = (parseIperfOutput output).2) := by
  refine ⟨?_, ?_, ?_, ?_, ?_, ?_⟩
  · intro h; simp [parseIperfOutput, h]
  · intro h; simp [parseIperfOutput, h]
  · intro m h; simp [parseIperfOutput, h]
  · intro m h; simp [parseIperfOutput, h]
  · intro other h; simp [parseIperfOutput, h]
  · intro other h; simp [parseIperfOutput, h]

set_option maxRecDepth 100000 in
theorem parseIperfOutput_defaults_witness :
    (parseIperfOutput receiverOnlyOutput).1 = .fin 0 ∧
    (parseIperfOutput receiverOnlyOutput).2 = parseFloat ['1', '0', '0'] :=
  ⟨(parseIperfOutput_defaults receiverOnlyOutput).1 (by decide),
   (parseIperfOutput_defaults receiverOnlyOutput).2.2.2.1
     ["100 Mbits/sec                  receiver".toList, ['1', '0', '0'], ['M']] (by decide)⟩


/-! ## Writing and reading numbers -/

theorem digitChar_isDigit (d : Nat) : isDigit (digitChar d) = true := by
  have h : d % 10 < 10 := Nat.mod_lt _ (by decide)
  unfold digitChar
  generalize d % 10 = m at h
  interval_cases m <;> decide

theorem digitVal_digitChar (d : Nat) : digitVal (digitChar d) = d % 10 := by
  have h : d % 10 < 10 := Nat.mod_lt _ (by decide)
  unfold digitChar
  generalize d % 10 = m at h
  interval_cases m <;> decide

theorem digitsVal_cons (c : Char) (cs : Text) :
    digitsVal (c :: cs) = digitVal c * 10 ^ cs.length + digitsVal cs := by
  have h := digitsVal_append [c] cs
  have h1 : digitsVal [c] = digitVal c := by simp [digitsVal]
  rw [h1] at h
  exact h

theorem natDigitsAux_digits (fuel n : Nat) (acc : Text) (hacc : acc.all isDigit = true) :
    (natDigitsAux fuel n acc).all isDigit = true := by
  induction fuel generalizing n acc with
  | zero => simpa [natDigitsAux] using hacc
  | succ fuel ih =>
    have hc : (digitChar n :: acc).all isDigit = true := by
      simp only [List.all_cons, digitChar_isDigit, hacc, Bool.and_self]
    unfold natDigitsAux
    split
    · exact hc
    · exact ih _ _ hc

theorem natDigitsAux_ne_nil (fuel n : Nat) (acc : Text) :
    natDigitsAux (fuel + 1) n acc ≠ [] := by
  induction fuel generalizing n acc with
  | zero =>
    unfold natDigitsAux
    split
    · simp
    · simp [natDigitsAux]
  | succ fuel ih =>
    unfold natDigitsAux
    split
    · simp
    · exact ih _ _

theorem natDigitsAux_value (fuel n : Nat) (acc : Text) (h : n < fuel) :
    digitsVal (natDigitsAux fuel n acc) = n * 10 ^ acc.length + digitsVal acc := by
  induction fuel generalizing n acc with
  | zero => omega
  | succ fuel ih =>
    unfold natDigitsAux
    split
    · rename_i h0
      rw [digitsVal_cons, digitVal_digitChar]
      have : n % 10 = n := by omega
      rw [this]
    · rename_i h0
      rw [ih (n / 10) _ (by omega), digitsVal_cons, digitVal_digitChar, List.length_cons, pow_succ]
      have hn : n = 10 * (n / 10) + n % 10 := by omega
      generalize 10 ^ acc.length = p
      generalize digitsVal acc = v
      generalize n / 10 = a at *
      generalize n % 10 = b at *
      subst hn
      ring

theorem natDigits_digits (n : Nat) : (natDigits n).all isDigit = true :=
  natDigitsAux_digits _ _ _ rfl

theorem natDigits_ne_nil (n : Nat) : natDigits n ≠ [] := natDigitsAux_ne_nil _ _ _

theorem natDigits_value (n : Nat) : digitsVal (natDigits n) = n := by
  have := natDigitsAux_value (n + 1) n [] (by omega)
  simpa [natDigits, digitsVal] using this

theorem pad3_digits (n : Nat) : (pad3 n).all isDigit = true := by
  simp [pad3, digitChar_isDigit]

theorem pad3_value (n : Nat) (h : n < 1000) : digitsVal (pad3 n) = n := by
  simp only [pad3, digitsVal, List.foldl_cons, List.foldl_nil, digitVal_digitChar]
  omega

/-! ## Rounding -/

theorem round3_nonneg {q : ℚ} (h : 0 ≤ q) : 0 ≤ round3 q := by
  have := roundHalfEven_nonneg (mul_nonneg h (by norm_num : (0 : ℚ) ≤ 1000))
  unfold round3
  have h2 : (0 : ℚ) ≤ (roundHalfEven (q * 1000) : ℚ) := by exact_mod_cast this
  positivity

theorem round3_le {q : ℚ} (n : Nat) (h : q ≤ 10 ^ n) : round3 q ≤ 10 ^ n := by
  have h1 : q * 1000 ≤ ((10 ^ n * 1000 : Int) : ℚ) := by
    push_cast
    linarith
  have h3 : (roundHalfEven (q * 1000) : ℚ) ≤ ((10 ^ n * 1000 : Int) : ℚ) := by
    exact_mod_cast roundHalfEven_le h1
  unfold round3
  push_cast at h3
  linarith

/-- A number rounded to three decimals is a number of thousandths. -/
theorem round3_eq_thousandths {q : ℚ} (h : 0 ≤ q) :
    round3 q = (((roundHalfEven (q * 1000)).toNat : Nat) : ℚ) / 1000 := by
  have hk := roundHalfEven_nonneg (mul_nonneg h (by norm_num : (0 : ℚ) ≤ 1000))
  have hK : (((roundHalfEven (q * 1000)).toNat : Nat) : ℚ) = (roundHalfEven (q * 1000) : ℚ) := by
    exact_mod_cast Int.toNat_of_nonneg hk
  rw [hK, round3]

theorem mathRound_near {y : ℚ} {N : Nat} (h0 : 0 ≤ y) (h : |y - N| < 1 / 2) :
    mathRound (.fin y) = .fin N := by
  rw [abs_lt] at h
  have hf : ⌊y + 1 / 2⌋ = (N : Int) :=
    Int.floor_eq_iff.mpr ⟨by push_cast; linarith, by push_cast; linarith⟩
  simp only [mathRound, h0, if_true, hf, Int.cast_natCast]

/-- Scaling a float64 near `N / S` by `S` and rounding to an integer gives `N`. -/
theorem mathRound_mul_near {v : ℚ} {S N : Nat} (h0 : 0 ≤ v) (hN : N ≤ 10 ^ 15)
    (hv : |v * S - N| ≤ N / 2 ^ 53 + 1 / 2 ^ 40) :
    mathRound ((F64.fin v).mul (.fin S)) = .fin N := by
  have hNq : (N : ℚ) ≤ 10 ^ 15 := by exact_mod_cast hN
  have hN0 : (0 : ℚ) ≤ N := Nat.cast_nonneg _
  have hw0 : 0 ≤ v * S := mul_nonneg h0 (Nat.cast_nonneg _)
  have hvb := abs_le.mp hv
  have hb : (10 : ℚ) ^ 16 < f64Bound := by norm_num [f64Bound]
  have hlt : |v * S| < f64Bound := by
    rw [abs_of_nonneg hw0]
    linarith
  obtain ⟨hy0, hy1, hy2⟩ := nearestF64_error hw0
  have hη := eta_le
  simp only [F64.mul, roundF64_of_lt hlt]
  apply mathRound_near hy0
  rw [abs_lt]
  generalize (2 : ℚ) ^ (-1075 : ℤ) = η at *
  constructor <;> linarith

/-- The function `roundDecimals` leaves the float64 nearest to a number of thousandths, up
to `10^11`, as it is, for 3 and for 4 decimals. -/
theorem roundDecimals_thousandths (k : Nat) (hk : k ≤ 10 ^ 14) :
    roundDecimals (.fin (nearestF64 ((k : ℚ) / 1000))) 3 = .fin (nearestF64 ((k : ℚ) / 1000)) ∧
    roundDecimals (.fin (nearestF64 ((k : ℚ) / 1000))) 4 =
      .fin (nearestF64 ((k : ℚ) / 1000)) := by
  have hkq : (k : ℚ) ≤ 10 ^ 14 := by exact_mod_cast hk
  have hk0 : (0 : ℚ) ≤ k := Nat.cast_nonneg _
  have hx0 : (0 : ℚ) ≤ (k : ℚ) / 1000 := by positivity
  obtain ⟨hv0, hv1, hv2⟩ := nearestF64_error hx0
  have hη := eta_le
  have hb : (10 : ℚ) ^ 16 < f64Bound := by norm_num [f64Bound]
  have hxlt : |(k : ℚ) / 1000| < f64Bound := by
    rw [abs_of_nonneg hx0]
    linarith
  have e3 : roundF64 ((10 : ℚ) ^ 3) = .fin ((1000 : Nat) : ℚ) := by
    simpa using roundF64_natCast 1000 (by norm_num)
  have e4 : roundF64 ((10 : ℚ) ^ 4) = .fin ((10000 : Nat) : ℚ) := by
    simpa using roundF64_natCast 10000 (by norm_num)
  have hm3 : mathRound ((F64.fin (nearestF64 ((k : ℚ) / 1000))).mul
      (.fin ((1000 : Nat) : ℚ))) = .fin ((k : Nat) : ℚ) := by
    apply mathRound_mul_near hv0 (by omega)
    rw [abs_le]
    push_cast
    generalize (2 : ℚ) ^ (-1075 : ℤ) = η at *
    constructor <;> linarith
  have hm4 : mathRound ((F64.fin (nearestF64 ((k : ℚ) / 1000))).mul
      (.fin ((10000 : Nat) : ℚ))) = .fin ((10 * k : Nat) : ℚ) := by
    apply mathRound_mul_near hv0 (by omega)
    rw [abs_le]
    push_cast
    generalize (2 : ℚ) ^ (-1075 : ℤ) = η at *
    constructor <;> linarith
  have d3 : ((k : Nat) : ℚ) / ((1000 : Nat) : ℚ) = (k : ℚ) / 1000 := by norm_num
  have d4 : ((10 * k : Nat) : ℚ) / ((10000 : Nat) : ℚ) = (k : ℚ) / 1000 := by
    push_cast
    field_simp
    ring
  have n3 : (((1000 : Nat) : ℚ)) ≠ 0 := by norm_num
  have n4 : (((10000 : Nat) : ℚ)) ≠ 0 := by norm_num
  constructor
  · simp only [roundDecimals, e3, hm3, F64.div, if_neg n3, d3, roundF64_of_lt hxlt]
  · simp only [roundDecimals, e4, hm4, F64.div, if_neg n4, d4, roundF64_of_lt hxlt]

/-- Rounding to 3 or 4 decimals leaves the float64 of a number of 3 decimals, up
to `10^11`, as it is. -/
theorem roundDecimals_round3 {q : ℚ} (h : 0 ≤ q) (h1 : q ≤ 10 ^ 11) :
    roundDecimals (.fin (nearestF64 (round3 q))) 3 = .fin (nearestF64 (round3 q)) ∧
    roundDecimals (.fin (nearestF64 (round3 q))) 4 = .fin (nearestF64 (round3 q)) := by
  have hk := roundHalfEven_nonneg (mul_nonneg h (by norm_num : (0 : ℚ) ≤ 1000))
  have hle : roundHalfEven (q * 1000) ≤ 10 ^ 14 :=
    roundHalfEven_le (by push_cast; linarith)
  rw [round3_eq_thousandths h]
  exact roundDecimals_thousandths _ (by omega)

/-- The function `roundDecimals` gives a finite number on a float64 up to `10^301`. -/
theorem roundDecimals_isFinite {v : ℚ} (h0 : 0 ≤ v) (h1 : v ≤ 10 ^ 301) :
    (roundDecimals (.fin v) 3).isFinite = true ∧ (roundDecimals (.fin v) 4).isFinite = true := by
  have e3 : roundF64 ((10 : ℚ) ^ 3) = .fin 1000 := by
    simpa using roundF64_natCast 1000 (by norm_num)
  have e4 : roundF64 ((10 : ℚ) ^ 4) = .fin 10000 := by
    simpa using roundF64_natCast 10000 (by norm_num)
  have hb : (10 : ℚ) ^ 301 * 20001 < f64Bound := by norm_num [f64Bound]
  have hT1 : (1 : ℚ) ≤ 10 ^ 301 := one_le_pow₀ (by norm_num)
  have hη := eta_le
  have key : ∀ S : ℚ, 1 ≤ S → S ≤ 10000 →
      (((mathRound ((F64.fin v).mul (.fin S))).div (.fin S)).isFinite = true) := by
    intro S hS1 hS2
    have hw0 : 0 ≤ v * S := mul_nonneg h0 (by linarith)
    have hw1 : v * S ≤ 10 ^ 301 * 10000 := by
      calc v * S ≤ 10 ^ 301 * S := mul_le_mul_of_nonneg_right h1 (by linarith)
        _ ≤ 10 ^ 301 * 10000 := mul_le_mul_of_nonneg_left hS2 (pow_nonneg (by norm_num) _)
    obtain ⟨hy0, hy1, hy2⟩ := nearestF64_error hw0
    have hfl1 : (⌊nearestF64 (v * S) + 1 / 2⌋ : ℚ) ≤ nearestF64 (v * S) + 1 / 2 :=
      Int.floor_le _
    have hfl0 : (0 : ℚ) ≤ (⌊nearestF64 (v * S) + 1 / 2⌋ : ℚ) := by
      exact_mod_cast Int.floor_nonneg.mpr (by linarith)
    have hS0 : S ≠ 0 := by linarith
    generalize (10 : ℚ) ^ 301 = T at *
    generalize (2 : ℚ) ^ (-1075 : ℤ) = η at *
    have hlt : |v * S| < f64Bound := by
      rw [abs_of_nonneg hw0]
      linarith
    have hq0 : 0 ≤ (⌊nearestF64 (v * S) + 1 / 2⌋ : ℚ) / S := div_nonneg hfl0 (by linarith)
    have hq1 : (⌊nearestF64 (v * S) + 1 / 2⌋ : ℚ) / S ≤ ⌊nearestF64 (v * S) + 1 / 2⌋ :=
      div_le_self hfl0 hS1
    have hlt2 : |(⌊nearestF64 (v * S) + 1 / 2⌋ : ℚ) / S| < f64Bound := by
      rw [abs_of_nonneg hq0]
      linarith
    simp only [F64.mul, roundF64_of_lt hlt, mathRound, hy0, if_true, F64.div, if_neg hS0,
      roundF64_of_lt hlt2, F64.isFinite]
  constructor
  · simp only [roundDecimals, e3]
    exact key 1000 (by norm_num) (by norm_num)
  · simp only [roundDecimals, e4]
    exact key 10000 (by norm_num) (by norm_num)

theorem formatFixed3_nonneg {q : ℚ} (h : 0 ≤ q) :
    formatFixed3 (.fin q) = (fixedDecimal q).text := by
  simp [formatFixed3, fixedDecimal, Decimal.text, abs_of_nonneg h, not_lt.mpr h]

theorem fixedDecimal_wellFormed (q : ℚ) : (fixedDecimal q).wellFormed = true := by
  simp [fixedDecimal, Decimal.wellFormed, natDigits_digits, pad3_digits, natDigits_ne_nil]

theorem fixedDecimal_value {q : ℚ} (h : 0 ≤ q) : (fixedDecimal q).value = round3 q := by
  have hk := roundHalfEven_nonneg (mul_nonneg h (by norm_num : (0 : ℚ) ≤ 1000))
  have hK : ((roundHalfEven (q * 1000)).toNat : Int) = roundHalfEven (q * 1000) :=
    Int.toNat_of_nonneg hk
  have hlen : (pad3 ((roundHalfEven (q * 1000)).toNat % 1000)).length = 3 := rfl
  simp only [fixedDecimal, Decimal.value, natDigits_value, hlen,
    pad3_value _ (Nat.mod_lt _ (by decide : 0 < 1000)), round3]
  rw [← hK]
  generalize (roundHalfEven (q * 1000)).toNat = K
  have hd : K = 1000 * (K / 1000) + K % 1000 := (Nat.div_add_mod K 1000).symm
  have hq : (K : ℚ) = 1000 * ((K / 1000 : Nat) : ℚ) + ((K % 1000 : Nat) : ℚ) := by
    exact_mod_cast hd
  push_cast
  rw [hq]
  field_simp
  ring

/-- Reading back what `%.3f` wrote for a finite number that is not negative:
the float64 nearest to the number of three decimals. -/
theorem ParseFloat_formatFixed3 {q : ℚ} (h0 : 0 ≤ q) (h1 : round3 q < f64Bound) :
    ParseFloat (formatFixed3 (.fin q)) = (.fin (nearestF64 (round3 q)), none) := by
  rw [formatFixed3_nonneg h0, ParseFloat_decimal _ (fixedDecimal_wellFormed q)
    (by rw [fixedDecimal_value h0]; exact h1),
    fixedDecimal_value h0]

/-! ## Writing and reading the measurement file -/

theorem jsonEscapeChar_plain {c : Char} (h : isPlain c = true) : jsonEscapeChar c = [c] := by
  simp only [isPlain, Bool.and_eq_true, decide_eq_true_eq, bne_iff_ne, ne_eq] at h
  obtain ⟨⟨⟨⟨⟨⟨⟨h32, hq⟩, hb⟩, hlt⟩, hgt⟩, hamp⟩, h1⟩, h2⟩ := h
  have hn : c ≠ '\n' := by rintro rfl; revert h32; decide
  have hr : c ≠ '\r' := by rintro rfl; revert h32; decide
  have ht : c ≠ '\t' := by rintro rfl; revert h32; decide
  have h3 : ¬ c.toNat < 32 := by omega
  simp [jsonEscapeChar, hq, hb, hlt, hgt, hamp, h1, h2, hn, hr, ht, h3]

theorem jsonQuote_plain {s : Text} (h : s.all isPlain = true) :
    jsonQuote s = '"' :: (s ++ ['"']) := by
  have : s.flatMap jsonEscapeChar = s := by
    induction s with
    | nil => rfl
    | cons c cs ih =>
      simp only [List.all_cons, Bool.and_eq_true] at h
      simp [List.flatMap_cons, jsonEscapeChar_plain h.1, ih h.2]
  simp [jsonQuote, this]

theorem readStringBody_plain (s rest : Text) (h : s.all isPlain = true) :
    readStringBody none 0 (s ++ '"' :: rest) = some (s, rest) := by
  induction s with
  | nil => simp [readStringBody]
  | cons c cs ih =>
    simp only [List.all_cons, Bool.and_eq_true] at h
    have hc := h.1
    simp only [isPlain, Bool.and_eq_true, decide_eq_true_eq, bne_iff_ne, ne_eq] at hc
    obtain ⟨⟨⟨⟨⟨⟨⟨h32, hq⟩, hb⟩, -⟩, -⟩, -⟩, -⟩, -⟩ := hc
    have h3 : ¬ c.toNat < 32 := by omega
    simp [readStringBody, hq, hb, h3, ih h.2]

theorem skipWs_of_head {c : Char} (cs : Text) (h : isJsonSpace c = false) :
    skipWs (c :: cs) = c :: cs := by
  simp [skipWs, List.dropWhile, h]

theorem skipWs_spaces {ws rest : Text} (h : ws.all isJsonSpace = true)
    (hr : skipWs rest = rest) : skipWs (ws ++ rest) = rest :=
  dropWhile_run h hr

/-- Reading a string value after one space. -/
theorem readValue_string (f : Nat) (u rest : Text) (hu : u.all isPlain = true) :
    readValue (f + 1) (' ' :: '"' :: (u ++ '"' :: rest)) = some (.str u, rest) := by
  have h1 : skipWs (' ' :: '"' :: (u ++ '"' :: rest)) = '"' :: (u ++ '"' :: rest) := by
    simp [skipWs, List.dropWhile, isJsonSpace]
  rw [readValue, h1]
  simp [readStringBody_plain u rest hu]

/-- Reading a member that is followed by another one. -/
theorem readMembers_next (f : Nat) (k u ws rest : Text) (hk : k.all isPlain = true)
    (hu : u.all isPlain = true) (hws : ws.all isJsonSpace = true)
    (hrest : skipWs rest = rest) :
    readMembers (f + 2) (jsonMember k u ++ ',' :: (ws ++ rest)) =
      (readMembers (f + 1) rest).map (fun m => ((k, .str u) :: m.1, m.2)) := by
  have e : jsonMember k u ++ ',' :: (ws ++ rest) =
      '"' :: (k ++ '"' :: ':' :: ' ' :: '"' :: (u ++ '"' :: ',' :: (ws ++ rest))) := by
    simp [jsonMember, jsonQuote_plain hk, jsonQuote_plain hu]
  rw [e, readMembers]
  simp only [if_true, readStringBody_plain k _ hk]
  rw [skipWs_of_head _ (by decide)]
  simp only [if_true, readValue_string f u _ hu]
  rw [skipWs_of_head _ (by decide)]
  simp only [if_true, skipWs_spaces hws hrest]

/-- Reading the last member, before the closing brace on the next line. -/
theorem readMembers_last (f : Nat) (k u rest : Text) (hk : k.all isPlain = true)
    (hu : u.all isPlain = true) :
    readMembers (f + 2) (jsonMember k u ++ '\n' :: '\x7d' :: rest) =
      some ([(k, .str u)], rest) := by
  have e : jsonMember k u ++ '\n' :: '\x7d' :: rest =
      '"' :: (k ++ '"' :: ':' :: ' ' :: '"' :: (u ++ '"' :: '\n' :: '\x7d' :: rest)) := by
    simp [jsonMember, jsonQuote_plain hk, jsonQuote_plain hu]
  rw [e, readMembers]
  simp only [if_true, readStringBody_plain k _ hk]
  rw [skipWs_of_head _ (by decide)]
  simp only [if_true, readValue_string f u _ hu]
  have h2 : skipWs ('\n' :: '\x7d' :: rest) = '\x7d' :: rest := by
    simp [skipWs, List.dropWhile, isJsonSpace]
  rw [h2]
  simp

theorem skipWs_jsonMember (k u rest : Text) :
    skipWs (jsonMember k u ++ rest) = jsonMember k u ++ rest := by
  simp [jsonMember, jsonQuote, skipWs, List.dropWhile, isJsonSpace]

/-- Reading back the document that `MarshalIndent` wrote. -/
theorem jsonUnmarshal_marshalIndent (d : NetworkData) (hd : d.plain = true) :
    jsonUnmarshal (marshalIndent d) = some d := by
  simp only [NetworkData.plain, Bool.and_eq_true] at hd
  obtain ⟨⟨⟨hU, hD⟩, hP⟩, hT⟩ := hd
  have hk1 : uploadKey.all isPlain = true := by decide
  have hk2 : downloadKey.all isPlain = true := by decide
  have hk3 : pingTimeKey.all isPlain = true := by decide
  have hk4 : timeStampKey.all isPlain = true := by decide
  have hws : ('\n' :: indent4).all isJsonSpace = true := by decide
  have hval : ∀ f, readValue (f + 6) (marshalIndent d) =
      some (.obj [(uploadKey, .str d.Upload), (downloadKey, .str d.Download),
        (pingTimeKey, .str d.PingTime), (timeStampKey, .str d.TimeStamp)], []) := by
    intro f
    have h4 := readMembers_last f timeStampKey d.TimeStamp [] hk4 hT
    have h3 := readMembers_next (f + 1) pingTimeKey d.PingTime ('\n' :: indent4)
      (jsonMember timeStampKey d.TimeStamp ++ ['\n', '\x7d']) hk3 hP hws (skipWs_jsonMember _ _ _)
    rw [h4] at h3
    have h2 := readMembers_next (f + 2) downloadKey d.Download ('\n' :: indent4) _ hk2 hD hws
      (skipWs_jsonMember pingTimeKey d.PingTime
        (',' :: ('\n' :: indent4 ++ (jsonMember timeStampKey d.TimeStamp ++ ['\n', '\x7d']))))
    rw [h3] at h2
    have h1 := readMembers_next (f + 3) uploadKey d.Upload ('\n' :: indent4) _ hk1 hU hws
      (skipWs_jsonMember downloadKey d.Download
        (',' :: ('\n' :: indent4 ++ (jsonMember pingTimeKey d.PingTime ++ ',' ::
          ('\n' :: indent4 ++ (jsonMember timeStampKey d.TimeStamp ++ ['\n', '\x7d']))))))
    rw [h2] at h1
    have hs1 : skipWs (marshalIndent d) = marshalIndent d := by
      simp [marshalIndent, skipWs, List.dropWhile, isJsonSpace]
    have hs2 : ∀ X, skipWs ('\n' :: (indent4 ++ (jsonMember uploadKey d.Upload ++ X))) =
        jsonMember uploadKey d.Upload ++ X := by
      intro X
      have := @skipWs_spaces ('\n' :: indent4) _ (by decide)
        (skipWs_jsonMember uploadKey d.Upload X)
      simpa using this
    rw [readValue, hs1]
    simp only [marshalIndent, if_true, hs2]
    have hj : ∀ X, jsonMember uploadKey d.Upload ++ X =
        '"' :: (uploadKey ++ '"' :: ':' :: ' ' :: jsonQuote d.Upload ++ X) := by
      intro X
      simp [jsonMember, jsonQuote_plain hk1]
    rw [hj]
    simp only [reduceCtorEq, Char.reduceEq, if_false]
    rw [← hj]
    simp only [List.cons_append] at h1
    rw [h1]
    rfl
  have hlen : ∃ f, 2 * (marshalIndent d).length + 2 = f + 6 :=
    ⟨2 * (marshalIndent d).length - 4, by simp [marshalIndent]; omega⟩
  obtain ⟨f, hf⟩ := hlen
  simp only [jsonUnmarshal, parseJSON, hf, hval f]
  simp [skipWs, setField, uploadKey, downloadKey, pingTimeKey, timeStampKey, lowerAscii]

/-! ## Writing and reading the time stamp -/

theorem getyear_pad4 (y : Nat) (r : Text) (h : y ≤ 9999) : getyear (pad4 y ++ r) = some (y, r) := by
  simp only [pad4, List.cons_append, List.nil_append, getyear, digitChar_isDigit, Bool.and_self,
    if_true, digitVal_digitChar, Option.some.injEq, Prod.mk.injEq, and_true]
  omega

theorem getnum2_pad2 (n : Nat) (r : Text) (h : n < 100) : getnum2 (pad2 n ++ r) = some (n, r) := by
  simp only [pad2, List.cons_append, List.nil_append, getnum2, digitChar_isDigit, Bool.and_self,
    if_true, digitVal_digitChar, Option.some.injEq, Prod.mk.injEq, and_true]
  omega

theorem getnum2_pad2_nil (n : Nat) (h : n < 100) : getnum2 (pad2 n) = some (n, []) := by
  simpa using getnum2_pad2 n [] h

theorem getnum_pad2 (n : Nat) (r : Text) (h : n < 100) : getnum (pad2 n ++ r) = some (n, r) := by
  simp only [pad2, List.cons_append, List.nil_append, getnum, digitChar_isDigit,
    if_true, digitVal_digitChar, Option.some.injEq, Prod.mk.injEq, and_true]
  omega

theorem readFraction_formatZone (offset : Int) :
    readFraction (formatZone offset) = (0, formatZone offset) := by
  unfold formatZone
  split
  · rfl
  · split <;> simp [readFraction, pad2]

theorem daysIn_le (m y : Nat) : daysIn m y ≤ 31 := by
  unfold daysIn
  split_ifs <;> omega

theorem parseDateTime_format (t : Time) (ht : t.valid = true) :
    parseDateTime (formatRFC3339 t) =
      some ({ t with nanos := 0, offset := 0 }, formatZone t.offset) := by
  simp only [Time.valid, Bool.and_eq_true, decide_eq_true_eq] at ht
  obtain ⟨⟨⟨⟨⟨⟨⟨⟨⟨⟨hy, hm1⟩, hm2⟩, hd1⟩, hd2⟩, hh⟩, hmi⟩, hs⟩, -⟩, -⟩, -⟩ := ht
  have hd3 := daysIn_le t.month t.year
  simp only [parseDateTime, formatRFC3339, bind, Option.bind, getyear_pad4 _ _ hy, expect,
    if_true, getnum2_pad2 _ _ (by omega : t.month < 100),
    getnum2_pad2 _ _ (by omega : t.day < 100), getnum_pad2 _ _ (by omega : t.hour < 100),
    getnum2_pad2 _ _ (by omega : t.minute < 100), getnum2_pad2 _ _ (by omega : t.second < 100),
    readFraction_formatZone]
  have c1 : ¬ (t.month = 0 ∨ 12 < t.month) := by omega
  have c2 : ¬ (24 ≤ t.hour) := by omega
  have c3 : ¬ (60 ≤ t.minute) := by omega
  have c4 : ¬ (60 ≤ t.second) := by omega
  simp only [c1, c2, c3, c4, if_false]
  simp only [Nat.lt_one_iff, not_lt.mpr hd2, or_false, Nat.ne_of_gt hd1, if_false]

/-- Reading back the time stamp that `Format(time.RFC3339)` wrote gives the time,
to the second. -/
theorem parseTimeStamp_format (t : Time) (ht : t.valid = true) :
    parseTimeStamp (formatRFC3339 t) = some { t with nanos := 0 } := by
  have hp := parseDateTime_format t ht
  simp only [Time.valid, Bool.and_eq_true, decide_eq_true_eq] at ht
  obtain ⟨⟨-, ho1⟩, ho2⟩ := ht
  by_cases h0 : t.offset = 0
  · have h1 : parseNumColonTZ (formatRFC3339 t) = none := by
      simp [parseNumColonTZ, hp, bind, Option.bind, formatZone, h0]
    have h2 : parseLiteralZ (formatRFC3339 t) = some { t with nanos := 0 } := by
      simp [parseLiteralZ, hp, bind, Option.bind, formatZone, h0, expect]
    simp [parseTimeStamp, h1, h2]
  · have hz : formatZone t.offset = (if t.offset < 0 then '-' else '+') ::
        (pad2 (t.offset.natAbs / 60) ++ ':' :: (pad2 (t.offset.natAbs % 60) ++ [])) := by
      simp [formatZone, h0]
    have ha : t.offset.natAbs / 60 < 100 := by omega
    have hb : t.offset.natAbs % 60 < 100 := by omega
    have h1 : parseNumColonTZ (formatRFC3339 t) = some { t with nanos := 0 } := by
      simp only [parseNumColonTZ, hp, bind, Option.bind, hz]
      by_cases hneg : t.offset < 0
      · have e : (-((t.offset.natAbs / 60 * 60 + t.offset.natAbs % 60 : Nat) : Int)) =
            t.offset := by omega
        simp only [hneg, if_true, getnum2_pad2 _ _ ha, expect, List.append_nil,
          getnum2_pad2_nil _ hb, ne_eq, not_true_eq_false, if_false, e]
        simp
      · have e : (((t.offset.natAbs / 60 * 60 + t.offset.natAbs % 60 : Nat) : Int)) =
            t.offset := by omega
        have hc : ('+' = '+' ∨ '+' = '-') := Or.inl rfl
        have hc2 : ¬ ('+' = '-') := by decide
        simp only [hneg, if_false, hc, if_true, hc2, getnum2_pad2 _ _ ha, expect,
          List.append_nil, getnum2_pad2_nil _ hb, ne_eq, not_true_eq_false, e]
        simp
    simp [parseTimeStamp, h1]

/-! ## From a cycle to the served result -/

theorem isPlain_of_isDigit {c : Char} (h : isDigit c = true) : isPlain c = true := by
  simp only [isDigit, decide_eq_true_eq] at h
  have h1 : c ≠ '"' := by rintro rfl; revert h; decide
  have h2 : c ≠ '\\' := by rintro rfl; revert h; decide
  have h3 : c ≠ '<' := by rintro rfl; revert h; decide
  have h4 : c ≠ '>' := by rintro rfl; revert h; decide
  have h5 : c ≠ '&' := by rintro rfl; revert h; decide
  simp only [isPlain, Bool.and_eq_true, decide_eq_true_eq, bne_iff_ne, ne_eq]
  refine ⟨⟨⟨⟨⟨⟨⟨by omega, h1⟩, h2⟩, h3⟩, h4⟩, h5⟩, by omega⟩, by omega⟩

theorem all_plain_of_digits {s : Text} (h : s.all isDigit = true) : s.all isPlain = true := by
  rw [List.all_eq_true] at h ⊢
  exact fun c hc => isPlain_of_isDigit (h c hc)

theorem fixedDecimal_plain (q : ℚ) : (fixedDecimal q).text.all isPlain = true := by
  have h1 := all_plain_of_digits (natDigits_digits ((roundHalfEven (q * 1000)).toNat / 1000))
  have h2 := all_plain_of_digits (pad3_digits ((roundHalfEven (q * 1000)).toNat % 1000))
  have h3 : isPlain '.' = true := by decide
  simp [fixedDecimal, Decimal.text, List.all_append, h1, h2, h3]

theorem pad2_plain (n : Nat) : (pad2 n).all isPlain = true := by
  simp [pad2, isPlain_of_isDigit (digitChar_isDigit _)]

theorem pad4_plain (n : Nat) : (pad4 n).all isPlain = true := by
  simp [pad4, isPlain_of_isDigit (digitChar_isDigit _)]

theorem formatRFC3339_plain (t : Time) : (formatRFC3339 t).all isPlain = true := by
  have hz : (formatZone t.offset).all isPlain = true := by
    unfold formatZone
    split
    · decide
    · split <;> simp [List.all_append, pad2_plain] <;> decide
  have c1 : isPlain '-' = true := by decide
  have c2 : isPlain 'T' = true := by decide
  have c3 : isPlain ':' = true := by decide
  simp [formatRFC3339, List.all_append, pad2_plain, pad4_plain, hz, c1, c2, c3]

/-- The record that `saveJSON` writes for numbers that are finite and not
negative. -/
theorem networkData_nonneg {s r p : ℚ} (hs : 0 ≤ s) (hr : 0 ≤ r) (hp : 0 ≤ p) (now : Time) :
    networkData (.fin s) (.fin r) (.fin p) now =
      ⟨(fixedDecimal s).text, (fixedDecimal r).text, (fixedDecimal p).text,
        formatRFC3339 now⟩ := by
  simp [networkData, formatFixed3_nonneg hs, formatFixed3_nonneg hr, formatFixed3_nonneg hp]

/-- A rate or latency up to `10^300`, rounded to three decimals, is in the
range of float64, and so is the float64 nearest to it. -/
theorem round3_bounds {q : ℚ} (h0 : 0 ≤ q) (h1 : q ≤ 10 ^ 300) :
    round3 q < f64Bound ∧ 0 ≤ nearestF64 (round3 q) ∧ nearestF64 (round3 q) ≤ 10 ^ 301 := by
  have hr0 := round3_nonneg h0
  have hr1 : round3 q ≤ 10 ^ 300 := round3_le 300 h1
  obtain ⟨hv0, hv1, -⟩ := nearestF64_error hr0
  have hη := eta_le
  have hb : (10 : ℚ) ^ 300 * 10 < f64Bound := by norm_num [f64Bound]
  have hT1 : (1 : ℚ) ≤ 10 ^ 300 := one_le_pow₀ (by norm_num)
  have e : (10 : ℚ) ^ 301 = 10 ^ 300 * 10 := by rw [pow_succ]
  rw [e]
  generalize (10 : ℚ) ^ 300 = T at *
  generalize (2 : ℚ) ^ (-1075 : ℤ) = η at *
  exact ⟨by linarith, hv0, by linarith⟩

/-- What the handler serves from a file that `saveJSON` wrote. -/
theorem handle_saved {s r p : ℚ} (hs : 0 ≤ s ∧ s ≤ 10 ^ 300) (hr : 0 ≤ r ∧ r ≤ 10 ^ 300)
    (hp : 0 ≤ p ∧ p ≤ 10 ^ 300) (now : Time) (hnow : now.valid = true) :
    handleSpeedTestLatest latestPath
        (some (marshalIndent (networkData (.fin s) (.fin r) (.fin p) now))) =
      latestResponse (roundDecimals (.fin (nearestF64 (round3 p))) 3)
        (roundDecimals (.fin (nearestF64 (round3 r))) 4)
        (roundDecimals (.fin (nearestF64 (round3 s))) 4) { now with nanos := 0 } := by
  have hnd := networkData_nonneg hs.1 hr.1 hp.1 now
  have hplain : (networkData (.fin s) (.fin r) (.fin p) now).plain = true := by
    rw [hnd]
    simp [NetworkData.plain, fixedDecimal_plain, formatRFC3339_plain]
  obtain ⟨bs1, bs2, bs3⟩ := round3_bounds hs.1 hs.2
  obtain ⟨br1, br2, br3⟩ := round3_bounds hr.1 hr.2
  obtain ⟨bp1, bp2, bp3⟩ := round3_bounds hp.1 hp.2
  have hU := ParseFloat_formatFixed3 hs.1 bs1
  have hD := ParseFloat_formatFixed3 hr.1 br1
  have hP := ParseFloat_formatFixed3 hp.1 bp1
  have hT := parseTimeStamp_format now hnow
  have fP := (roundDecimals_isFinite bp2 bp3).1
  have fD := (roundDecimals_isFinite br2 br3).2
  have fU := (roundDecimals_isFinite bs2 bs3).2
  simp only [handleSpeedTestLatest, ne_eq, not_true_eq_false, if_false,
    jsonUnmarshal_marshalIndent _ hplain]
  simp only [networkData, hU, hD, hP, hT, SpeedTest.encodable, fP, fD, fU, Bool.and_self,
    if_true, latestResponse]

theorem fixedDecimal_thousandths (k : Nat) :
    fixedDecimal ((k : ℚ) / 1000) = ⟨natDigits (k / 1000), some (pad3 (k % 1000))⟩ := by
  have e : (k : ℚ) / 1000 * 1000 = ((k : Int) : ℚ) := by
    push_cast
    field_simp
  simp only [fixedDecimal, e, roundHalfEven_intCast, Int.toNat_ofNat]

theorem round3_thousandths (k : Nat) : round3 ((k : ℚ) / 1000) = (k : ℚ) / 1000 := by
  have e : (k : ℚ) / 1000 * 1000 = ((k : Int) : ℚ) := by
    push_cast
    field_simp
  simp only [round3, e, roundHalfEven_intCast]
  push_cast
  rfl

theorem fastIperf_rates :
    (runIperfCommand (.output fastIperfOutput)).1 = .fin 940 ∧
    (runIperfCommand (.output fastIperfOutput)).2.1 = .fin 935 := by
  have hS : FindStringSubmatch senderRegex fastIperfOutput =
      some ["940 Mbits/sec    0             sender".toList,
        Decimal.text ⟨['9', '4', '0'], none⟩, ['M']] := by decide
  have hR : FindStringSubmatch receiverRegex fastIperfOutput =
      some ["935 Mbits/sec                  receiver".toList,
        Decimal.text ⟨['9', '3', '5'], none⟩, ['M']] := by decide
  have e1 : digitsVal ['9', '4', '0'] = 940 := by decide
  have e2 : digitsVal ['9', '3', '5'] = 935 := by decide
  have p1 := parseFloat_decimal ⟨['9', '4', '0'], none⟩ (by decide)
  have p2 := parseFloat_decimal ⟨['9', '3', '5'], none⟩ (by decide)
  have r1 : roundF64 (940 : ℚ) = .fin 940 := by simpa using roundF64_natCast 940 (by norm_num)
  have r2 : roundF64 (935 : ℚ) = .fin 935 := by simpa using roundF64_natCast 935 (by norm_num)
  constructor
  · simp only [runIperfCommand, parseIperfOutput, hS, List.getD_cons_succ,
      List.getD_cons_zero, p1]
    norm_num [Decimal.value, e1, r1]
  · simp only [runIperfCommand, parseIperfOutput, hR, List.getD_cons_succ,
      List.getD_cons_zero, p2]
    norm_num [Decimal.value, e2, r2]

theorem fastPing_bounds :
    0 ≤ nearestF64 (12345 / 1000) ∧ nearestF64 (12345 / 1000) ≤ 13 := by
  obtain ⟨h0, h1, -⟩ := nearestF64_error (by norm_num : (0 : ℚ) ≤ 12345 / 1000)
  have hη := eta_le
  generalize (2 : ℚ) ^ (-1075 : ℤ) = η at *
  exact ⟨h0, by linarith⟩

theorem fastPing_average :
    (pingIP (.output fastPingOutput)).1 = .fin (nearestF64 (12345 / 1000)) := by
  have hA : FindAllStringSubmatch pingRegex fastPingOutput =
      [["time=12.345".toList, Decimal.text ⟨['1', '2'], some ['3', '4', '5']⟩]] := by decide
  have e1 : digitsVal ['1', '2'] = 12 := by decide
  have e2 : digitsVal ['3', '4', '5'] = 345 := by decide
  have hval : Decimal.value ⟨['1', '2'], some ['3', '4', '5']⟩ = 12345 / 1000 := by
    norm_num [Decimal.value, e1, e2]
  have p1 := ParseFloat_decimal ⟨['1', '2'], some ['3', '4', '5']⟩ (by decide)
    (by rw [hval]; norm_num [f64Bound])
  rw [hval] at p1
  obtain ⟨hv0, hv1⟩ := fastPing_bounds
  have hlt : |nearestF64 (12345 / 1000)| < f64Bound := by
    rw [abs_of_nonneg hv0]
    have : (13 : ℚ) < f64Bound := by norm_num [f64Bound]
    linarith
  have r1 : roundF64 (1 : ℚ) = .fin 1 := by simpa using roundF64_natCast 1 (by norm_num)
  simp only [pingIP, averagePing, hA]
  simp only [totalPingTime, List.foldl_cons, List.foldl_nil, addPingTime, List.getD_cons_succ,
    List.getD_cons_zero, p1, F64.add_fin, F64.ofNat, List.length_cons, List.length_nil,
    zero_add, Nat.cast_one, r1, roundF64_of_lt hlt, nearestF64_idem, F64.div, one_ne_zero,
    if_false, div_one]

/-- C8: for a request to `/api/speedtest/latest` the handler answers 500 with a
plain-text body whenever a stage fails (the file cannot be read, is not a JSON
document for the record, a number does not convert, the time stamp does not
parse), and it answers 200 only when every stage succeeded, with the numbers
and the time read from the file. -/
theorem handleSpeedTestLatest_failures (netdata : Option Text) :
    (netdata = none →
      handleSpeedTestLatest latestPath netdata = httpError "Failed to read file".toList 500) ∧
    (∀ data, netdata = some data → jsonUnmarshal data = none →
      handleSpeedTestLatest latestPath netdata =
        httpError "Failed to decode JSON".toList 500) ∧
    (¬ stagesSucceed netdata →
      (handleSpeedTestLatest latestPath netdata).status = 500 ∧
      (handleSpeedTestLatest latestPath netdata).contentType = plainText ∧
      ∃ msg, (handleSpeedTestLatest latestPath netdata).body = .text msg) ∧
    ((handleSpeedTestLatest latestPath netdata).status = 200 →
      ∃ data netData timeStamp, netdata = some data ∧ jsonUnmarshal data = some netData ∧
        (ParseFloat netData.PingTime).2 = none ∧ (ParseFloat netData.Download).2 = none ∧
        (ParseFloat netData.Upload).2 = none ∧
        parseTimeStamp netData.TimeStamp = some timeStamp ∧
        handleSpeedTestLatest latestPath netdata =
          latestResponse (roundDecimals (ParseFloat netData.PingTime).1 3)
            (roundDecimals (ParseFloat netData.Download).1 4)
            (roundDecimals (ParseFloat netData.Upload).1 4) timeStamp) := by
  have key : (∃ msg, handleSpeedTestLatest latestPath netdata = httpError msg 500) ∨
      (∃ data netData timeStamp, netdata = some data ∧ jsonUnmarshal data = some netData ∧
        (ParseFloat netData.PingTime).2 = none ∧ (ParseFloat netData.Download).2 = none ∧
        (ParseFloat netData.Upload).2 = none ∧
        parseTimeStamp netData.TimeStamp = some timeStamp ∧
        handleSpeedTestLatest latestPath netdata =
          latestResponse (roundDecimals (ParseFloat netData.PingTime).1 3)
            (roundDecimals (ParseFloat netData.Download).1 4)
            (roundDecimals (ParseFloat netData.Upload).1 4) timeStamp) := by
    cases netdata with
    | none => exact Or.inl ⟨"Failed to read file".toList, by simp [handleSpeedTestLatest]⟩
    | some data =>
      cases hj : jsonUnmarshal data with
      | none =>
        exact Or.inl ⟨"Failed to decode JSON".toList, by simp [handleSpeedTestLatest, hj]⟩
      | some nd =>
        rcases hP : ParseFloat nd.PingTime with ⟨vp, _ | ep⟩
        swap
        · exact Or.inl ⟨"Failed to parse PingTime".toList, by
            simp [handleSpeedTestLatest, hj, hP]⟩
        rcases hD : ParseFloat nd.Download with ⟨vd, _ | ed⟩
        swap
        · exact Or.inl ⟨"Failed to parse Download".toList, by
            simp [handleSpeedTestLatest, hj, hP, hD]⟩
        rcases hU : ParseFloat nd.Upload with ⟨vu, _ | eu⟩
        swap
        · exact Or.inl ⟨"Failed to parse Upload".toList, by
            simp [handleSpeedTestLatest, hj, hP, hD, hU]⟩
        cases hT : parseTimeStamp nd.TimeStamp with
        | none =>
          exact Or.inl ⟨"Failed to parse TimeStamp".toList, by
            simp [handleSpeedTestLatest, hj, hP, hD, hU, hT]⟩
        | some t =>
          by_cases hE : ((roundDecimals vp 3).isFinite = true ∧
              (roundDecimals vd 4).isFinite = true) ∧ (roundDecimals vu 4).isFinite = true
          · refine Or.inr ⟨data, nd, t, rfl, hj, by rw [hP], by rw [hD], by rw [hU], hT, ?_⟩
            simp [handleSpeedTestLatest, hj, hP, hD, hU, hT, SpeedTest.encodable, hE,
              latestResponse]
          · exact Or.inl ⟨"Failed to marshal JSON response".toList, by
              simp [handleSpeedTestLatest, hj, hP, hD, hU, hT, SpeedTest.encodable, hE]⟩
  refine ⟨?_, ?_, ?_, ?_⟩
  · rintro rfl
    simp [handleSpeedTestLatest]
  · rintro data rfl hj
    simp [handleSpeedTestLatest, hj]
  · intro hns
    rcases key with ⟨msg, h⟩ | ⟨data, nd, t, h1, h2, h3, h4, h5, h6, -⟩
    · rw [h]
      exact ⟨rfl, rfl, _, rfl⟩
    · exact absurd ⟨data, nd, t, h1, h2, h3, h4, h5, h6⟩ hns
  · intro h200
    rcases key with ⟨msg, h⟩ | h
    · rw [h] at h200
      simp [httpError] at h200
    · exact h

set_option maxRecDepth 100000 in
theorem handleSpeedTestLatest_failures_witness :
    handleSpeedTestLatest latestPath (some truncatedFile) =
      httpError "Failed to decode JSON".toList 500 :=
  (handleSpeedTestLatest_failures (some truncatedFile)).2.1 truncatedFile rfl (by decide)

/-! ## A cycle whose write fails -/

/-- C9, as the code behaves: when `saveJSON` fails because `netdata.json` cannot
be opened for writing, it returns an error, the file is left as it was, and
the handler answers a later request exactly as it would have before the
cycle: with the previous measurement, or with its error. -/
theorem failed_write_keeps_previous (iperf ping : CmdResult) (now : Time)
    (old : Option Text) (path : Text) :
    (saveJSON (runIperfCommand iperf).1 (runIperfCommand iperf).2.1 (pingIP ping).1 now
        .openFailed old).2 = true ∧
    measurementCycle iperf ping now .openFailed old = old ∧
    handleSpeedTestLatest path (measurementCycle iperf ping now .openFailed old) =
      handleSpeedTestLatest path old := by
  refine ⟨rfl, rfl, rfl⟩


theorem earlierFile_eq :
    marshalIndent (networkData (.fin 123) (.fin 100) (.fin 20) sampleTime) = earlierFile := by
  have h1 : (123 : ℚ) = ((123000 : Nat) : ℚ) / 1000 := by norm_num
  have h2 : (100 : ℚ) = ((100000 : Nat) : ℚ) / 1000 := by norm_num
  have h3 : (20 : ℚ) = ((20000 : Nat) : ℚ) / 1000 := by norm_num
  rw [networkData_nonneg (by norm_num) (by norm_num) (by norm_num), h1, h2, h3,
    fixedDecimal_thousandths, fixedDecimal_thousandths, fixedDecimal_thousandths]
  decide

theorem handle_earlierFile :
    handleSpeedTestLatest latestPath (some earlierFile) =
      latestResponse (.fin 20) (.fin 100) (.fin 123) sampleTime := by
  have h := handle_saved (s := 123) (r := 100) (p := 20) ⟨by norm_num, by norm_num⟩
    ⟨by norm_num, by norm_num⟩ ⟨by norm_num, by norm_num⟩ sampleTime (by decide)
  have h1 : round3 (123 : ℚ) = 123 := by
    have := round3_thousandths 123000
    norm_num at this
    exact this
  have h2 : round3 (100 : ℚ) = 100 := by
    have := round3_thousandths 100000
    norm_num at this
    exact this
  have h3 : round3 (20 : ℚ) = 20 := by
    have := round3_thousandths 20000
    norm_num at this
    exact this
  have d1 := (roundDecimals_round3 (by norm_num : (0 : ℚ) ≤ 123) (by norm_num)).2
  have d2 := (roundDecimals_round3 (by norm_num : (0 : ℚ) ≤ 100) (by norm_num)).2
  have d3 := (roundDecimals_round3 (by norm_num : (0 : ℚ) ≤ 20) (by norm_num)).1
  have n1 : nearestF64 (123 : ℚ) = 123 := by simpa using nearestF64_natCast 123 (by norm_num)
  have n2 : nearestF64 (100 : ℚ) = 100 := by simpa using nearestF64_natCast 100 (by norm_num)
  have n3 : nearestF64 (20 : ℚ) = 20 := by simpa using nearestF64_natCast 20 (by norm_num)
  rw [earlierFile_eq, d1, d2, d3, h1, h2, h3, n1, n2, n3] at h
  exact h

/-- C9 fails on the code: there is no result kept in memory, the handler reads
the file. After a cycle that measured 940, 935 Mbits/sec and 12.345 ms and
could not open the file for writing, `saveJSON` has returned an error and the
handler still serves the earlier measurement (123, 100 Mbits/sec, 20 ms), not
the one of this cycle; with no earlier file it answers 500. -/
theorem failed_write_serves_previous :
    (saveJSON (.fin 940) (.fin 935) (.fin (nearestF64 (12345 / 1000))) laterTime .openFailed
      (some earlierFile)).2 = true ∧
    (runIperfCommand (.output fastIperfOutput)).1 = .fin 940 ∧
    (runIperfCommand (.output fastIperfOutput)).2.1 = .fin 935 ∧
    (pingIP (.output fastPingOutput)).1 = .fin (nearestF64 (12345 / 1000)) ∧
    handleSpeedTestLatest latestPath
        (measurementCycle (.output fastIperfOutput) (.output fastPingOutput) laterTime
          .openFailed (some earlierFile)) =
      latestResponse (.fin 20) (.fin 100) (.fin 123) sampleTime ∧
    latestResponse (.fin 20) (.fin 100) (.fin 123) sampleTime ≠
      latestResponse (.fin (nearestF64 (12345 / 1000))) (.fin 935) (.fin 940)
        { laterTime with nanos := 0 } ∧
    handleSpeedTestLatest latestPath
        (measurementCycle (.output fastIperfOutput) (.output fastPingOutput) laterTime
          .openFailed none) =
      httpError "Failed to read file".toList 500 := by
  refine ⟨rfl, fastIperf_rates.1, fastIperf_rates.2, fastPing_average, ?_, ?_, ?_⟩
  · exact handle_earlierFile
  · intro h
    simp only [latestResponse, Response.mk.injEq, Body.json.injEq, ApiResponse.mk.injEq,
      SpeedTest.mk.injEq, F64.fin.injEq] at h
    norm_num at h
  · simp [measurementCycle, saveJSON, writeFile, handleSpeedTestLatest]


end IperfApp
